import Mathlib

/-!
Verification of the text-rewriting engine and redirect resolver of
`docs/_scripts/notebook_hooks.py`.

Strings are modelled as `List Char`.  The regex-driven transforms of the
source are embedded as explicit scanners with the same semantics as
Python's `re.sub` on the concrete patterns used in the file:

* `code_block_pattern`
  indent `[ \t]*`, three backticks, language `\w+`, a run of spaces
  `[ ]*`, attributes `[^\n]*`, a newline, a minimal (non-greedy) body of
  whole lines `(?:.*\n)*?`, and a closer consisting of the same indent
  followed by three backticks.  `re.sub` scans left to right, trying the
  pattern at every position and advancing one character after a failure.
  Because the indent class `[ \t]` never contains a backtick, the greedy
  indent group with backtracking is equivalent to taking the maximal
  run of spaces/tabs at the current position.

* the conditional block pattern of `_apply_conditional_rendering`, with
  `:::` delimiters, `\s*\n` after the tag (greedy whitespace with
  backtracking: it consumes up to and including the last newline of the
  maximal whitespace run) and a closer `(?P=indent)[ \t]*:::`.

All functions are fuel-based structural recursions so that concrete
runs reduce in the kernel; the fuel supplied by the wrappers is always
sufficient because every step consumes at least one character.
-/

namespace NotebookHooks

/-- Indentation characters of the regex classes: space and tab. -/
def isIndentChar (c : Char) : Bool := c = ' ' || c = '\t'

/-- ASCII word characters, the regex class w restricted to ASCII
(all inputs considered here are ASCII). -/
def isWordChar (c : Char) : Bool := c.isAlphanum || c = '_'

/-- Whitespace as used by Python str.strip / str.rstrip and by the
regex class s: space, tab, newline, carriage return, vertical tab and
form feed. -/
def isPyWs (c : Char) : Bool :=
  c = ' ' || c = '\t' || c = '\n' || c = '\r' || c = Char.ofNat 11 || c = Char.ofNat 12

/-- Python substring containment `needle in hay`. -/
def containsSub (needle : List Char) : List Char → Bool
  | [] => needle.isPrefixOf []
  | c :: t => needle.isPrefixOf (c :: t) || containsSub needle t

/-- Python str.rstrip(): drop trailing whitespace. -/
def rstripChars (l : List Char) : List Char :=
  (l.reverse.dropWhile isPyWs).reverse

/-- Python `s.split("\n")`: split on newlines; the separators are not
kept and the result is never empty. -/
def splitNl : List Char → List (List Char)
  | [] => [[]]
  | c :: t =>
    if c = '\n' then [] :: splitNl t
    else
      match splitNl t with
      | [] => [[c]]
      | l :: ls => (c :: l) :: ls

/-- Python `"\n".join(lines)`. -/
def joinNl : List (List Char) → List Char
  | [] => []
  | [l] => l
  | l :: ls => l ++ '\n' :: joinNl ls

/-- Python `" ".join(parts)`. -/
def joinSpace : List (List Char) → List Char
  | [] => []
  | [l] => l
  | l :: ls => l ++ ' ' :: joinSpace ls

/-- Decimal digit character. -/
def digitChar10 (d : Nat) : Char := Char.ofNat (48 + d)

/-- Fuelled decimal printer accumulating digits from the right. -/
def natCharsF : Nat → Nat → List Char → List Char
  | 0, _, acc => acc
  | fuel + 1, n, acc =>
    if n < 10 then digitChar10 n :: acc
    else natCharsF fuel (n / 10) (digitChar10 (n % 10) :: acc)

/-- Decimal representation of a natural number, as Python str(). -/
def natChars (n : Nat) : List Char := natCharsF (n + 1) n []

/-- A line is blank when Python `line.strip()` is empty. -/
def isBlankLine (l : List Char) : Bool := l.all isPyWs

/-- Split off the first line of a text together with its terminating
newline; none when the text contains no newline. -/
def splitLine : List Char → Option (List Char × List Char)
  | [] => none
  | c :: t =>
    if c = '\n' then some ([c], t)
    else
      match splitLine t with
      | none => none
      | some (ln, r) => some (c :: ln, r)

/-- The three backticks delimiting a fence. -/
def ticks3 : List Char := "```".toList

/-- Groups of one match of `code_block_pattern`. -/
structure FenceMatch where
  indent : List Char
  language : List Char
  spaces : List Char
  attrsRaw : List Char
  code : List Char
  deriving DecidableEq, Repr

/-- Group 0 of a fence match: the exact text the pattern consumed. -/
def fenceWhole (m : FenceMatch) : List Char :=
  m.indent ++ ticks3 ++ m.language ++ m.spaces ++ m.attrsRaw ++ '\n' :: m.code
    ++ m.indent ++ ticks3

/-- Closer search of the fence pattern: consume whole lines
(non-greedy body) until a position whose text starts with the indent
followed by three backticks; return the consumed body and the text
after the closing backticks.  Fuel bounds the number of lines. -/
def findCloserF (ind : List Char) : Nat → List Char → Option (List Char × List Char)
  | 0, _ => none
  | fuel + 1, s =>
    if (ind ++ ticks3).isPrefixOf s then some ([], s.drop (ind.length + 3))
    else
      match splitLine s with
      | none => none
      | some (ln, r) =>
        match findCloserF ind fuel r with
        | none => none
        | some (code, rest) => some (ln ++ code, rest)

/-- Groups of the opening-line part of `code_block_pattern`. -/
structure OpenerParse where
  indent : List Char
  language : List Char
  spaces : List Char
  attrsRaw : List Char
  deriving DecidableEq, Repr

/-- Parse the opening line of `code_block_pattern` at the start of the
text: indent, three backticks, a nonempty language, a run of spaces,
the attributes up to the newline, and the newline itself; returns the
groups and the text after the newline. -/
def parseOpener (s : List Char) : Option (OpenerParse × List Char) :=
  let ind := s.takeWhile isIndentChar
  let s1 := s.drop ind.length
  if ticks3.isPrefixOf s1 then
    let s2 := s1.drop 3
    let lang := s2.takeWhile isWordChar
    if lang = [] then none
    else
      let s3 := s2.drop lang.length
      let sp := s3.takeWhile (fun c => c = ' ')
      let s4 := s3.drop sp.length
      let attrs := s4.takeWhile (fun c => c ≠ '\n')
      let s5 := s4.drop attrs.length
      match s5 with
      | '\n' :: s6 =>
        some ({ indent := ind, language := lang, spaces := sp, attrsRaw := attrs }, s6)
      | _ => none
  else none

/-- Attempt to match `code_block_pattern` at the start of the text,
returning the groups and the unconsumed remainder. -/
def tryMatch (s : List Char) : Option (FenceMatch × List Char) :=
  match parseOpener s with
  | none => none
  | some (g, afterHdr) =>
    match findCloserF g.indent (afterHdr.length + 1) afterHdr with
    | none => none
    | some (code, rest) =>
      some ({ indent := g.indent, language := g.language, spaces := g.spaces,
              attrsRaw := g.attrsRaw, code := code }, rest)

/-- Scan of `re.sub`: try the pattern at every position; on a match,
emit the replacement and continue after the match, otherwise emit one
character and advance. -/
def subScanF (repl : FenceMatch → List Char) : Nat → List Char → List Char
  | 0, s => s
  | _ + 1, [] => []
  | fuel + 1, c :: t =>
    match tryMatch (c :: t) with
    | some (m, rest) => repl m ++ subScanF repl fuel rest
    | none => c :: subScanF repl fuel t

/-- Marker comment for the python language family. -/
def pyMarker : List Char := "# highlight-next-line".toList

/-- Marker comment for every other language. -/
def slashMarker : List Char := "// highlight-next-line".toList

/-- Marker comment selected for a fence language: the hash form for the
py/python family, the slash form otherwise. -/
def languageMarker (lang : List Char) : List Char :=
  if lang = "py".toList || lang = "python".toList then pyMarker else slashMarker

/-- Loop of replace_highlight_comments over the body lines: marker
lines are dropped, each recording one more than the number of lines
kept so far; other lines are kept. -/
def hlLoop (marker : List Char) (kept : List (List Char)) :
    List (List Char) → List (List Char) × List (List Char)
  | [] => (kept, [])
  | l :: ls =>
    if containsSub marker l then
      let r := hlLoop marker kept ls
      (r.1, natChars (kept.length + 1) :: r.2)
    else hlLoop marker (kept ++ [l]) ls

/-- Replacement function replace_highlight_comments of
_highlight_code_blocks, applied to one fence match. -/
def replace_highlight_comments (m : FenceMatch) : List Char :=
  let attrs := rstripChars m.attrsRaw
  if containsSub "hl_lines".toList attrs then fenceWhole m
  else
    let lines := (splitNl m.code).dropWhile isBlankLine
    let marker := languageMarker m.language
    let r := hlLoop marker [] lines
    let newCode := joinNl r.1
    let fence :=
      ticks3 ++ m.language
        ++ (if attrs ≠ [] then ' ' :: attrs else [])
        ++ (if r.2 ≠ [] then
              " hl_lines=\"".toList ++ joinSpace r.2 ++ "\"".toList
            else [])
    m.indent ++ fence ++ '\n' :: newCode ++ m.indent ++ ticks3

/-- The function _highlight_code_blocks of the source. -/
def highlight_code_blocks (s : List Char) : List Char :=
  subScanF replace_highlight_comments s.length s

/-- Replacement function replace_code_block_header of
_add_path_to_code_blocks, applied to one fence match. -/
def replace_code_block_header (srcPath : List Char) (m : FenceMatch) : List Char :=
  let attrs := rstripChars m.attrsRaw
  if ¬ containsSub "exec=\"on\"".toList attrs then fenceWhole m
  else
    m.indent ++ ticks3 ++ m.language ++ ' ' :: attrs
      ++ " path=\"".toList ++ srcPath ++ "\"".toList
      ++ '\n' :: m.code ++ m.indent ++ ticks3

/-- The function _add_path_to_code_blocks of the source; the page is
represented by its source path. -/
def add_path_to_code_blocks (s : List Char) (srcPath : List Char) : List Char :=
  subScanF (replace_code_block_header srcPath) s.length s

/-- The three colons delimiting a conditional block. -/
def colon3 : List Char := ":::".toList

/-- Groups of one match of the conditional-block pattern. -/
structure CondMatch where
  indent : List Char
  language : List Char
  wsRun : List Char
  content : List Char
  closer : List Char
  deriving DecidableEq, Repr

/-- Group 0 of a conditional-block match. -/
def condWhole (m : CondMatch) : List Char :=
  m.indent ++ colon3 ++ m.language ++ m.wsRun ++ m.content ++ m.closer

/-- Closer test of the conditional pattern `(?P=indent)[ \t]*:::`: the
indent, then a maximal run of spaces/tabs, then three colons; returns
the consumed closer text and the remainder. -/
def condCloserTest (ind : List Char) (s : List Char) : Option (List Char × List Char) :=
  if ind.isPrefixOf s then
    let s1 := s.drop ind.length
    let sp := s1.takeWhile isIndentChar
    let s2 := s1.drop sp.length
    if colon3.isPrefixOf s2 then some (ind ++ sp ++ colon3, s2.drop 3) else none
  else none

/-- Closer search of the conditional pattern: consume whole lines
(non-greedy content) until the closer test succeeds; returns the
content, the consumed closer and the remainder. -/
def findCondCloserF (ind : List Char) :
    Nat → List Char → Option (List Char × List Char × List Char)
  | 0, _ => none
  | fuel + 1, s =>
    match condCloserTest ind s with
    | some (chunk, rest) => some ([], chunk, rest)
    | none =>
      match splitLine s with
      | none => none
      | some (ln, r) =>
        match findCondCloserF ind fuel r with
        | none => none
        | some (content, chunk, rest) => some (ln ++ content, chunk, rest)

/-- Consume the regex `\s*\n`: the greedy whitespace run with
backtracking ends the match at the last newline inside the maximal
whitespace run; fails when the run has no newline. -/
def wsToLastNl (s : List Char) : Option (List Char × List Char) :=
  let run := s.takeWhile isPyWs
  if run.contains '\n' then
    let consumed := (run.reverse.dropWhile (fun c => c ≠ '\n')).reverse
    some (consumed, s.drop consumed.length)
  else none

/-- Attempt to match the conditional-block pattern at the start of the
text. -/
def tryMatchCond (s : List Char) : Option (CondMatch × List Char) :=
  let ind := s.takeWhile isIndentChar
  let s1 := s.drop ind.length
  if colon3.isPrefixOf s1 then
    let s2 := s1.drop 3
    let lang := s2.takeWhile isWordChar
    if lang = [] then none
    else
      let s3 := s2.drop lang.length
      match wsToLastNl s3 with
      | none => none
      | some (run, s4) =>
        match findCondCloserF ind (s4.length + 1) s4 with
        | none => none
        | some (content, chunk, rest) =>
          some ({ indent := ind, language := lang, wsRun := run,
                  content := content, closer := chunk }, rest)
  else none

/-- Replacement function replace_conditional_blocks of
_apply_conditional_rendering: unrecognized tags are kept verbatim, the
selected language keeps its content, the other recognized language is
dropped. -/
def replace_conditional_blocks (target : List Char) (m : CondMatch) : List Char :=
  if ¬ (m.language = "python".toList ∨ m.language = "js".toList) then condWhole m
  else if m.language = target then m.content
  else []

/-- Scan of `re.sub` for the conditional pattern. -/
def subCondScanF (target : List Char) : Nat → List Char → List Char
  | 0, s => s
  | _ + 1, [] => []
  | fuel + 1, c :: t =>
    match tryMatchCond (c :: t) with
    | some (m, rest) => replace_conditional_blocks target m ++ subCondScanF target fuel rest
    | none => c :: subCondScanF target fuel t

/-- The function _apply_conditional_rendering of the source; raising
ValueError is modelled by the error branch of Except. -/
def apply_conditional_rendering (s : List Char) (target : List Char) :
    Except (List Char) (List Char) :=
  if ¬ (target = "python".toList ∨ target = "js".toList) then
    .error "target_language must be 'python' or 'js'".toList
  else .ok (subCondScanF target s.length s)

/-- Python str.replace: replace every occurrence of a nonempty needle,
scanning left to right. -/
def replaceAllF (needle repl : List Char) : Nat → List Char → List Char
  | 0, s => s
  | _ + 1, [] => []
  | fuel + 1, c :: t =>
    if needle ≠ [] ∧ needle.isPrefixOf (c :: t) then
      repl ++ replaceAllF needle repl fuel ((c :: t).drop needle.length)
    else c :: replaceAllF needle repl fuel t

/-- Python str.replace wrapper supplying the fuel. -/
def replaceAll (needle repl s : List Char) : List Char :=
  replaceAllF needle repl s.length s

/-- Python str.partition("#"): text before the first '#', the
separator if found, and the text after it. -/
def partitionHash : List Char → List Char × List Char × List Char
  | [] => ([], [], [])
  | c :: t =>
    if c = '#' then ([], ['#'], t)
    else
      let r := partitionHash t
      (c :: r.1, r.2.1, r.2.2)

/-- Suffix test on character lists. -/
def endsWithList (suff l : List Char) : Bool := suff.isSuffixOf l

/-- Python posixpath.dirname: everything before the last slash, with
trailing slashes stripped. -/
def dirnamePosix (p : List Char) : List Char :=
  let head := (p.reverse.dropWhile (fun c => c ≠ '/')).reverse
  if head.all (fun c => c = '/') then head
  else (head.reverse.dropWhile (fun c => c = '/')).reverse

/-- Split a character list on a separator character. -/
def splitOnChar (sep : Char) : List Char → List (List Char)
  | [] => [[]]
  | c :: t =>
    if c = sep then [] :: splitOnChar sep t
    else
      match splitOnChar sep t with
      | [] => [[c]]
      | l :: ls => (c :: l) :: ls

/-- Join parts with a separator character. -/
def intercalateChar (sep : Char) : List (List Char) → List Char
  | [] => []
  | [l] => l
  | l :: ls => l ++ sep :: intercalateChar sep ls

/-- Nonempty, non-dot path components, as posixpath.relpath sees them
after the absolute-path normalization (the working-directory prefix of
both sides cancels for the relative, dot-dot-free paths used here). -/
def pathComponents (p : List Char) : List (List Char) :=
  (splitOnChar '/' p).filter (fun l => !l.isEmpty && !(l = ['.'] : Bool))

/-- Length of the common prefix of two component lists. -/
def commonPrefixLen : List (List Char) → List (List Char) → Nat
  | a :: as, b :: bs => if a = b then commonPrefixLen as bs + 1 else 0
  | _, _ => 0

/-- Python posixpath.relpath on the relative, dot-dot-free paths used
by the redirect resolver: strip the common component prefix, go up for
every remaining start component, then down the remaining path
components; empty means the current directory. -/
def relpathPosix (path start : List Char) : List Char :=
  let pl := pathComponents path
  let sl := pathComponents start
  let i := commonPrefixLen pl sl
  let res := List.replicate (sl.length - i) "..".toList ++ pl.drop i
  if res = [] then ".".toList else intercalateChar '/' res

/-- Modelled from the spec: the site generator's output-path rule for a
page (the URL builder collaborator, mkdocs File.dest_path, is not part
of this repository).  Under directory-style URLs a markdown page
`a/b.md` renders to `a/b/index.html` and an index page to
`a/index.html`; otherwise to `a/b.html`; non-markdown paths pass
through unchanged. -/
def destPath (p : List Char) (useDirectoryUrls : Bool) : List Char :=
  if ¬ endsWithList ".md".toList p then p
  else
    let stem := p.take (p.length - 3)
    let base := (stem.reverse.takeWhile (fun c => c ≠ '/')).reverse
    if base = "index".toList ∨ base = "README".toList then
      stem.take (stem.length - base.length) ++ "index.html".toList
    else if useDirectoryUrls then stem ++ "/index.html".toList
    else stem ++ ".html".toList

/-- Modelled from the spec: the site generator's URL builder with
directory-style URLs always enabled (mkdocs File.url for a File built
with use_directory_urls=True, not part of this repository).  The
destination `…/index.html` is addressed as `…/`, a root index as `.`;
non-markdown paths pass through unchanged. -/
def urlDirStyle (p : List Char) : List Char :=
  if ¬ endsWithList ".md".toList p then p
  else
    let dest := destPath p true
    let pre := dest.take (dest.length - 10)
    if pre = [] then ".".toList else pre

/-- The REDIRECT_MAP table of the source. -/
def REDIRECT_MAP : List (String × String) := [
  ("how-tos/stream-values.ipynb", "how-tos/streaming.md#stream-graph-state"),
  ("how-tos/stream-updates.ipynb", "how-tos/streaming.md#stream-graph-state"),
  ("how-tos/streaming-content.ipynb", "how-tos/streaming.md"),
  ("how-tos/stream-multiple.ipynb", "how-tos/streaming.md#stream-multiple-nodes"),
  ("how-tos/streaming-tokens-without-langchain.ipynb", "how-tos/streaming.md#use-with-any-llm"),
  ("how-tos/streaming-from-final-node.ipynb", "how-tos/streaming-specific-nodes.ipynb"),
  ("how-tos/streaming-events-from-within-tools-without-langchain.ipynb", "how-tos/streaming-events-from-within-tools.ipynb#example-without-langchain"),
  ("how-tos/state-reducers.ipynb", "how-tos/graph-api.md#define-and-update-state"),
  ("how-tos/sequence.ipynb", "how-tos/graph-api.md#create-a-sequence-of-steps"),
  ("how-tos/branching.ipynb", "how-tos/graph-api.md#create-branches"),
  ("how-tos/recursion-limit.ipynb", "how-tos/graph-api.md#create-and-control-loops"),
  ("how-tos/visualization.ipynb", "how-tos/graph-api.md#visualize-your-graph"),
  ("how-tos/input_output_schema.ipynb", "how-tos/graph-api.md#define-input-and-output-schemas"),
  ("how-tos/pass_private_state.ipynb", "how-tos/graph-api.md#pass-private-state-between-nodes"),
  ("how-tos/state-model.ipynb", "how-tos/graph-api.md#use-pydantic-models-for-graph-state"),
  ("how-tos/map-reduce.ipynb", "how-tos/graph-api.md#map-reduce-and-the-send-api"),
  ("how-tos/command.ipynb", "how-tos/graph-api.md#combine-control-flow-and-state-updates-with-command"),
  ("how-tos/configuration.ipynb", "how-tos/graph-api.md#add-runtime-configuration"),
  ("how-tos/node-retries.ipynb", "how-tos/graph-api.md#add-retry-policies"),
  ("how-tos/return-when-recursion-limit-hits.ipynb", "how-tos/graph-api.md#impose-a-recursion-limit"),
  ("how-tos/async.ipynb", "how-tos/graph-api.md#async"),
  ("how-tos/memory/manage-conversation-history.ipynb", "how-tos/memory/add-memory.md"),
  ("how-tos/memory/delete-messages.ipynb", "how-tos/memory/add-memory.md#delete-messages"),
  ("how-tos/memory/add-summary-conversation-history.ipynb", "how-tos/memory/add-memory.md#summarize-messages"),
  ("how-tos/memory.ipynb", "how-tos/memory/add-memory.md"),
  ("agents/memory.ipynb", "how-tos/memory/add-memory.md"),
  ("how-tos/subgraph-transform-state.ipynb", "how-tos/subgraph.md#different-state-schemas"),
  ("how-tos/subgraphs-manage-state.ipynb", "how-tos/subgraph.md#add-persistence"),
  ("how-tos/persistence_postgres.ipynb", "how-tos/memory/add-memory.md#use-in-production"),
  ("how-tos/persistence_mongodb.ipynb", "how-tos/memory/add-memory.md#use-in-production"),
  ("how-tos/persistence_redis.ipynb", "how-tos/memory/add-memory.md#use-in-production"),
  ("how-tos/subgraph-persistence.ipynb", "how-tos/memory/add-memory.md#use-with-subgraphs"),
  ("how-tos/cross-thread-persistence.ipynb", "how-tos/memory/add-memory.md#add-long-term-memory"),
  ("cloud/how-tos/copy_threads", "cloud/how-tos/use_threads"),
  ("cloud/how-tos/check-thread-status", "cloud/how-tos/use_threads"),
  ("cloud/concepts/threads.md", "concepts/persistence.md#threads"),
  ("how-tos/persistence.ipynb", "how-tos/memory/add-memory.md"),
  ("how-tos/tool-calling-errors.ipynb", "how-tos/tool-calling.ipynb#handle-errors"),
  ("how-tos/pass-config-to-tools.ipynb", "how-tos/tool-calling.ipynb#access-config"),
  ("how-tos/pass-run-time-values-to-tools.ipynb", "how-tos/tool-calling.ipynb#read-state"),
  ("how-tos/update-state-from-tools.ipynb", "how-tos/tool-calling.ipynb#update-state"),
  ("agents/tools.md", "how-tos/tool-calling.md"),
  ("how-tos/agent-handoffs.ipynb", "how-tos/multi_agent.md#handoffs"),
  ("how-tos/multi-agent-network.ipynb", "how-tos/multi_agent.md#use-in-a-multi-agent-system"),
  ("how-tos/multi-agent-multi-turn-convo.ipynb", "how-tos/multi_agent.md#multi-turn-conversation"),
  ("cloud/index.md", "index.md"),
  ("cloud/how-tos/index.md", "concepts/langgraph_platform"),
  ("cloud/concepts/api.md", "concepts/langgraph_server.md"),
  ("cloud/concepts/cloud.md", "concepts/langgraph_cloud.md"),
  ("cloud/faq/studio.md", "concepts/langgraph_studio.md#studio-faqs"),
  ("cloud/how-tos/human_in_the_loop_edit_state.md", "cloud/how-tos/add-human-in-the-loop.md"),
  ("cloud/how-tos/human_in_the_loop_user_input.md", "cloud/how-tos/add-human-in-the-loop.md"),
  ("concepts/platform_architecture.md", "concepts/langgraph_cloud#architecture"),
  ("cloud/how-tos/stream_values.md", "cloud/how-tos/streaming.md#stream-graph-state"),
  ("cloud/how-tos/stream_updates.md", "cloud/how-tos/streaming.md#stream-graph-state"),
  ("cloud/how-tos/stream_messages.md", "cloud/how-tos/streaming.md#messages"),
  ("cloud/how-tos/stream_events.md", "cloud/how-tos/streaming.md#stream-events"),
  ("cloud/how-tos/stream_debug.md", "cloud/how-tos/streaming.md#debug"),
  ("cloud/how-tos/stream_multiple.md", "cloud/how-tos/streaming.md#stream-multiple-modes"),
  ("cloud/concepts/streaming.md", "concepts/streaming.md"),
  ("agents/streaming.md", "how-tos/streaming.md"),
  ("how-tos/create-react-agent.ipynb", "agents/agents.md#basic-configuration"),
  ("how-tos/create-react-agent-memory.ipynb", "agents/memory.md"),
  ("how-tos/create-react-agent-system-prompt.ipynb", "agents/context.md#prompts"),
  ("how-tos/create-react-agent-structured-output.ipynb", "agents/agents.md#structured-output"),
  ("prebuilt.md", "agents/prebuilt.md"),
  ("reference/prebuilt.md", "reference/agents.md"),
  ("concepts/high_level.md", "index.md"),
  ("concepts/index.md", "index.md"),
  ("concepts/v0-human-in-the-loop.md", "concepts/human-in-the-loop.md"),
  ("how-tos/index.md", "index.md"),
  ("tutorials/introduction.ipynb", "concepts/why-langgraph.md"),
  ("agents/deployment.md", "tutorials/langgraph-platform/local-server.md"),
  ("how-tos/deploy-self-hosted.md", "cloud/deployment/self_hosted_data_plane.md"),
  ("concepts/self_hosted.md", "concepts/langgraph_self_hosted_data_plane.md"),
  ("tutorials/deployment.md", "concepts/deployment_options.md"),
  ("cloud/how-tos/assistant_versioning.md", "cloud/how-tos/configuration_cloud.md"),
  ("cloud/concepts/runs.md", "concepts/assistants.md#execution"),
  ("how-tos/wait-user-input-functional.ipynb", "how-tos/use-functional-api.md"),
  ("how-tos/review-tool-calls-functional.ipynb", "how-tos/use-functional-api.md"),
  ("how-tos/create-react-agent-hitl.ipynb", "how-tos/human_in_the_loop/add-human-in-the-loop.md"),
  ("agents/human-in-the-loop.md", "how-tos/human_in_the_loop/add-human-in-the-loop.md"),
  ("how-tos/human_in_the_loop/dynamic_breakpoints.ipynb", "how-tos/human_in_the_loop/breakpoints.md"),
  ("concepts/breakpoints.md", "concepts/human_in_the_loop.md"),
  ("how-tos/human_in_the_loop/breakpoints.md", "how-tos/human_in_the_loop/add-human-in-the-loop.md"),
  ("cloud/how-tos/human_in_the_loop_breakpoint.md", "cloud/how-tos/add-human-in-the-loop.md"),
  ("how-tos/human_in_the_loop/edit-graph-state.ipynb", "how-tos/human_in_the_loop/time-travel.md")]

/-- One entry of on_post_build: from an old path and its mapped new
target, the stub output location and the relative target written into
the stub, exactly as the source computes them. -/
def redirectEntry (pageOld pageNew : List Char) (useDirectoryUrls : Bool) :
    List Char × List Char :=
  let old1 := replaceAll ".ipynb".toList ".md".toList pageOld
  let new1 := replaceAll ".ipynb".toList ".md".toList pageNew
  let parts := partitionHash new1
  let oldHtmlPath := destPath old1 useDirectoryUrls
  let newUrl := urlDirStyle parts.1
  (oldHtmlPath, relpathPosix newUrl (dirnamePosix oldHtmlPath) ++ parts.2.1 ++ parts.2.2)

/-- The relative target the stub for an entry carries. -/
def redirectTarget (pageOld pageNew : List Char) (useDirectoryUrls : Bool) : List Char :=
  (redirectEntry pageOld pageNew useDirectoryUrls).2

/-- The HTML_TEMPLATE of the source with the target substituted for
each of its three placeholders, as _write_html emits it. -/
def htmlRedirect (url : List Char) : List Char :=
  "\n<!doctype html>\n<html lang=\"en\">\n<head>\n    <meta charset=\"utf-8\">\n    <title>Redirecting...</title>\n    <link rel=\"canonical\" href=\"".toList
    ++ url
    ++ "\">\n    <meta name=\"robots\" content=\"noindex\">\n    <script>var anchor=window.location.hash.substr(1);location.href=\"".toList
    ++ url
    ++ "\"+(anchor?\"#\"+anchor:\"\")</script>\n    <meta http-equiv=\"refresh\" content=\"0; url=".toList
    ++ url
    ++ "\">\n</head>\n<body>\nRedirecting...\n</body>\n</html>\n".toList

/-- The function on_post_build of the source applied to a redirect
table: for every entry, independently, the stub location and the stub
document _write_html places there. -/
def on_post_build_stubs (table : List (String × String)) (useDirectoryUrls : Bool) :
    List (List Char × List Char) :=
  table.map (fun e =>
    let r := redirectEntry e.1.toList e.2.toList useDirectoryUrls
    (r.1, htmlRedirect r.2))

/-- Description of the redirect target following the words of the
specification: split the new target at '#', normalize the .ipynb
extension to .md in both paths, build the destination URL of the
new-path component under directory-style rules, take the relative path
from the old entry's output directory under the active configuration,
and append the anchor fragment when present. -/
def specRedirectTarget (pageOld pageNew : List Char) (useDirectoryUrls : Bool) : List Char :=
  let normExt := fun (p : List Char) =>
    if endsWithList ".ipynb".toList p then p.take (p.length - 6) ++ ".md".toList else p
  let parts := partitionHash pageNew
  let old1 := normExt pageOld
  let newPath := normExt parts.1
  let anchor := if parts.2.1 = [] then ([] : List Char) else '#' :: parts.2.2
  relpathPosix (urlDirStyle newPath) (dirnamePosix (destPath old1 useDirectoryUrls)) ++ anchor

/-- Hex digit of a JSON unicode escape. -/
def hexDigit (n : Nat) : Char := if n < 10 then Char.ofNat (48 + n) else Char.ofNat (87 + n)

/-- JSON escaping of one character as json.dumps with
ensure_ascii=False performs it. -/
def jsonEscChar (c : Char) : List Char :=
  if c = '"' then ['\\', '"']
  else if c = '\\' then ['\\', '\\']
  else if c = '\n' then ['\\', 'n']
  else if c = '\r' then ['\\', 'r']
  else if c = '\t' then ['\\', 't']
  else if c = Char.ofNat 8 then ['\\', 'b']
  else if c = Char.ofNat 12 then ['\\', 'f']
  else if c.toNat < 32 then
    ['\\', 'u', '0', '0', hexDigit (c.toNat / 16), hexDigit (c.toNat % 16)]
  else [c]

/-- JSON escaping of a character list. -/
def jsonEsc : List Char → List Char
  | [] => []
  | c :: t => jsonEscChar c ++ jsonEsc t

/-- A JSON string literal. -/
def jsonStr (s : List Char) : List Char := '"' :: jsonEsc s ++ ['"']

/-- The JSON payload json.dumps builds in _inject_markdown_into_html,
keys in insertion order. -/
def markdownJson (md title url : List Char) : List Char :=
  "\x7b\"markdown\": ".toList ++ jsonStr md ++ ", \"title\": ".toList ++ jsonStr title
    ++ ", \"url\": ".toList ++ jsonStr url ++ "\x7d".toList

/-- The function _inject_markdown_into_html of the source; the page is
represented by its stored original markdown, its title after the
`or "Page Content"` default, and its url.  Raising ValueError is
modelled by the error branch of Except. -/
def inject_markdown_into_html (html md title url : List Char) :
    Except (List Char) (List Char) :=
  if md = [] then .ok html
  else
    let json1 := markdownJson md title url
    let json2 := replaceAll "</".toList "\\u003c/".toList json1
    let json3 := replaceAll "<script".toList "\\u003cscript".toList json2
    let json4 := replaceAll "</script".toList "\\u003c/script".toList json3
    let script := "<script id=\"page-markdown-content\" type=\"application/json\">".toList
      ++ json4 ++ "</script>".toList
    if ¬ containsSub "</head>".toList html then
      .error "HTML does not contain </head> tag. Cannot inject markdown content.".toList
    else .ok (replaceAll "</head>".toList (script ++ "</head>".toList) html)

/-- Description, following the words of the specification, of the body
lines a highlighted fence retains: after leading fully-blank lines are
stripped, exactly the lines not containing the marker comment, in
order. -/
def specKeptLines (marker : List Char) (lines : List (List Char)) : List (List Char) :=
  lines.filter (fun l => !containsSub marker l)

/-- Description, following the words of the specification, of the
recorded line numbers with an initial count offset: a marker-bearing
line records the offset plus one; a retained line increases the
offset. -/
def specNumsAux (marker : List Char) (base : Nat) : List (List Char) → List (List Char)
  | [] => []
  | l :: ls =>
    if containsSub marker l then natChars (base + 1) :: specNumsAux marker base ls
    else specNumsAux marker (base + 1) ls

/-- Description, following the words of the specification, of the
recorded line numbers: the i-th line, when it bears the marker,
records one plus the count of retained (marker-free) lines among the
lines before it. -/
def specHlNums (marker : List Char) (lines : List (List Char)) : List (List Char) :=
  (List.range lines.length).filterMap (fun i =>
    if containsSub marker (lines.getD i []) then
      some (natChars (((lines.take i).filter (fun l => !containsSub marker l)).length + 1))
    else none)

/-- C1 counterexample: on the python fence with body lines `x = 1`,
`y = 2  # highlight-next-line`, `z = 3`, the transpiler does not emit a
line-number attribute whose value equals 3; no `hl_lines="3"` occurs in
the output at all. -/
theorem C1_counterexample :
    highlight_code_blocks "```python\nx = 1\ny = 2  # highlight-next-line\nz = 3\n```".toList ≠
      "```python hl_lines=\"3\"\nx = 1\nz = 3\n```".toList ∧
    containsSub "hl_lines=\"3\"".toList
      (highlight_code_blocks
        "```python\nx = 1\ny = 2  # highlight-next-line\nz = 3\n```".toList) = false := by
  constructor
  · decide
  · decide

/-- C1 amended: on that fence the transpiler removes the whole
marker-bearing line (`y = 2  # highlight-next-line`) and re-emits the
fence with hl_lines value 2, the position of `z = 3` among the retained
lines. -/
theorem C1_theorem :
    highlight_code_blocks "```python\nx = 1\ny = 2  # highlight-next-line\nz = 3\n```".toList =
      "```python hl_lines=\"2\"\nx = 1\nz = 3\n```".toList := by
  decide

/-- C5: _apply_conditional_rendering succeeds exactly when the selector
is python or js, and for any other selector it returns the validation
error, independent of the input text, which is never transformed. -/
theorem C5_theorem (s target : List Char) :
    ((∃ r, apply_conditional_rendering s target = .ok r) ↔
      (target = "python".toList ∨ target = "js".toList)) ∧
    (¬ (target = "python".toList ∨ target = "js".toList) →
      apply_conditional_rendering s target =
        .error "target_language must be 'python' or 'js'".toList) := by
  unfold apply_conditional_rendering
  by_cases h : target = "python".toList ∨ target = "js".toList
  · rw [if_neg (not_not_intro h)]
    refine ⟨⟨fun _ => h, fun _ => ⟨_, rfl⟩⟩, fun hc => absurd h hc⟩
  · rw [if_pos h]
    refine ⟨⟨?_, fun hab => absurd hab h⟩, fun _ => rfl⟩
    rintro ⟨r, hr⟩
    cases hr

/-- C5 witness: a concrete non-python, non-js selector is rejected. -/
theorem C5_witness :
    apply_conditional_rendering "text".toList "ruby".toList =
      .error "target_language must be 'python' or 'js'".toList :=
  ( C5_theorem "text".toList "ruby".toList).2 (by decide)

/-- C8 counterexample: a fence opened with two-space indentation whose
only triple-backtick closer line has zero indentation is not passed
through unmodified: both code-block transforms rewrite it (through a
zero-indent match starting at the backticks). -/
theorem C8_counterexample :
    highlight_code_blocks "  ```python\n# highlight-next-line\nx = 1\n```\n".toList ≠
      "  ```python\n# highlight-next-line\nx = 1\n```\n".toList ∧
    add_path_to_code_blocks "  ```python exec=\"on\"\ncode\n```\n".toList "p.md".toList ≠
      "  ```python exec=\"on\"\ncode\n```\n".toList := by
  constructor
  · decide
  · decide

/-- C8 amended: such a fence is not matched with the two-space indent
group; instead, when a zero-indent triple-backtick line exists, the
pattern matches a zero-indent fence starting at the backticks and the
transforms rewrite that match, leaving the two leading spaces in place;
a fence the replacement maps to itself (no marker, no leading blank
line, no exec attribute) passes through textually unchanged. -/
theorem C8_theorem :
    highlight_code_blocks "  ```python\n# highlight-next-line\nx = 1\n```\n".toList =
      ("  ".toList ++ "```python hl_lines=\"1\"\nx = 1\n```\n".toList) ∧
    add_path_to_code_blocks "  ```python exec=\"on\"\ncode\n```\n".toList "p.md".toList =
      ("  ".toList ++ "```python exec=\"on\" path=\"p.md\"\ncode\n```\n".toList) ∧
    highlight_code_blocks "  ```python\nx = 1\n```\n".toList =
      "  ```python\nx = 1\n```\n".toList ∧
    add_path_to_code_blocks "  ```python\nx = 1\n```\n".toList "p.md".toList =
      "  ```python\nx = 1\n```\n".toList := by
  refine ⟨by decide, by decide, by decide, by decide⟩

/-- C9: a matched fence whose attributes carry exec="on" gets the page
source path appended as the final attribute, exactly one per
application (so a second application appends a second path attribute);
a fence without the marker is reproduced as matched, and surrounding
text is untouched, shown on a two-fence document. -/
theorem C9_theorem :
    (∀ (src : List Char) (m : FenceMatch),
      (containsSub "exec=\"on\"".toList (rstripChars m.attrsRaw) = true →
        replace_code_block_header src m =
          m.indent ++ ticks3 ++ m.language ++ ' ' :: rstripChars m.attrsRaw
            ++ " path=\"".toList ++ src ++ "\"".toList ++ '\n' :: m.code
            ++ m.indent ++ ticks3) ∧
      (containsSub "exec=\"on\"".toList (rstripChars m.attrsRaw) = false →
        replace_code_block_header src m = fenceWhole m)) ∧
    add_path_to_code_blocks
      "pre\n```python exec=\"on\" a=1\ncode\n```\nmid\n```python a=1\ncode2\n```\npost\n".toList
      "p.md".toList =
      "pre\n```python exec=\"on\" a=1 path=\"p.md\"\ncode\n```\nmid\n```python a=1\ncode2\n```\npost\n".toList ∧
    add_path_to_code_blocks
      "pre\n```python exec=\"on\" a=1 path=\"p.md\"\ncode\n```\nmid\n```python a=1\ncode2\n```\npost\n".toList
      "p.md".toList =
      "pre\n```python exec=\"on\" a=1 path=\"p.md\" path=\"p.md\"\ncode\n```\nmid\n```python a=1\ncode2\n```\npost\n".toList := by
  constructor
  · intro src m
    constructor
    · intro h
      simp only [replace_code_block_header, h]
      simp
    · intro h
      simp only [replace_code_block_header, h]
      simp [fenceWhole]
  · exact ⟨by decide, by decide⟩

/-- C9 witness: the general clauses applied to the concrete first fence
of the document above. -/
theorem C9_witness :
    replace_code_block_header "p.md".toList
      { indent := [], language := "python".toList, spaces := [' '],
        attrsRaw := "exec=\"on\" a=1".toList, code := "code\n".toList } =
      "```python exec=\"on\" a=1 path=\"p.md\"\ncode\n```".toList := by
  have h := (C9_theorem.1 "p.md".toList
    { indent := [], language := "python".toList, spaces := [' '],
      attrsRaw := "exec=\"on\" a=1".toList, code := "code\n".toList }).1 (by decide)
  rw [h]
  decide

/-- C10 counterexample: a page whose stored original markdown is empty
is returned unchanged even though its HTML has no head-closing tag, so
the injection step does not raise on every such page text. -/
theorem C10_counterexample :
    containsSub "</head>".toList "<body></body>".toList = false ∧
    inject_markdown_into_html "<body></body>".toList [] "Page Content".toList [] =
      .ok "<body></body>".toList := by
  constructor
  · decide
  · rfl

/-- C10 amended: whenever the page carries nonempty original markdown,
an HTML page text without a head-closing tag makes the injection step
raise immediately; with empty markdown the page is returned unchanged
without the check. -/
theorem C10_theorem (html md title url : List Char) (hmd : md ≠ [])
    (hh : containsSub "</head>".toList html = false) :
    inject_markdown_into_html html md title url =
      .error "HTML does not contain </head> tag. Cannot inject markdown content.".toList := by
  unfold inject_markdown_into_html
  simp [hmd, hh]
  exact hh

/-- C10 witness: concrete headless HTML with nonempty markdown is
rejected. -/
theorem C10_witness :
    inject_markdown_into_html "<body>x</body>".toList "m".toList "T".toList [] =
      .error "HTML does not contain </head> tag. Cannot inject markdown content.".toList :=
  C10_theorem "<body>x</body>".toList "m".toList "T".toList [] (by decide) (by decide)

/-- The kept component of the highlight loop is the initial
accumulator followed by the marker-free lines. -/
theorem hlLoop_fst (marker : List Char) :
    ∀ (ls : List (List Char)) (kept : List (List Char)),
      (hlLoop marker kept ls).1 = kept ++ specKeptLines marker ls := by
  intro ls
  induction ls with
  | nil => intro kept; simp [hlLoop, specKeptLines]
  | cons l ls ih =>
    intro kept
    by_cases c : containsSub marker l = true
    · simp [hlLoop, c, specKeptLines, ih]
    · have c' : containsSub marker l = false := by
        cases hc : containsSub marker l
        · rfl
        · exact absurd hc c
      simp [hlLoop, c', specKeptLines, ih]

/-- The numbers component of the highlight loop is described by
specNumsAux with the accumulator length as offset. -/
theorem hlLoop_snd (marker : List Char) :
    ∀ (ls : List (List Char)) (kept : List (List Char)),
      (hlLoop marker kept ls).2 = specNumsAux marker kept.length ls := by
  intro ls
  induction ls with
  | nil => intro kept; simp [hlLoop, specNumsAux]
  | cons l ls ih =>
    intro kept
    by_cases c : containsSub marker l = true
    · simp [hlLoop, c, specNumsAux, ih]
    · have c' : containsSub marker l = false := by
        cases hc : containsSub marker l
        · rfl
        · exact absurd hc c
      simp [hlLoop, c', specNumsAux, ih]

/-- The offset description of the recorded numbers agrees with the
index-based description of the specification. -/
theorem specNumsAux_eq (marker : List Char) :
    ∀ (ls : List (List Char)) (base : Nat),
      specNumsAux marker base ls =
        (List.range ls.length).filterMap (fun i =>
          if containsSub marker (ls.getD i []) then
            some (natChars (base + ((ls.take i).filter (fun l => !containsSub marker l)).length + 1))
          else none) := by
  intro ls
  induction ls with
  | nil => intro base; simp [specNumsAux]
  | cons l ls ih =>
    intro base
    rw [List.length_cons, List.range_succ_eq_map]
    cases hc : containsSub marker l with
    | true =>
      rw [specNumsAux, if_pos hc, ih base]
      simp only [List.filterMap_cons, List.getD_cons_zero, hc, List.take_zero,
        List.filter_nil, List.length_nil, Nat.add_zero, List.filterMap_map]
      congr 1
      apply List.filterMap_congr
      intro i _
      simp only [Function.comp_apply, List.getD_cons_succ, List.take_succ_cons,
        List.filter_cons, hc]
      rfl
    | false =>
      rw [specNumsAux, if_neg (by simp [hc]), ih (base + 1)]
      simp only [List.filterMap_cons, List.getD_cons_zero, hc, List.filterMap_map]
      simp only [Bool.false_eq_true, if_false]
      apply List.filterMap_congr
      intro i _
      simp only [Function.comp_apply, List.getD_cons_succ, List.take_succ_cons,
        List.filter_cons, hc]
      by_cases hcc : containsSub marker (ls.getD i []) = true
      · rw [if_pos hcc, if_pos hcc]
        congr 2
        simp
        omega
      · rw [if_neg hcc, if_neg hcc]

/-- C2: for a matched fence whose attributes do not already contain
hl_lines, the replacement strips leading fully-blank body lines,
removes every line containing the language-appropriate marker, records
at each marker one plus the count of lines retained so far, and
appends a space-separated hl_lines attribute exactly when some number
was recorded, leaving the attributes unchanged otherwise. -/
theorem C2_theorem (m : FenceMatch)
    (h : containsSub "hl_lines".toList (rstripChars m.attrsRaw) = false) :
    replace_highlight_comments m =
      (let attrs := rstripChars m.attrsRaw
      let lines := (splitNl m.code).dropWhile isBlankLine
      let marker := languageMarker m.language
      let nums := specHlNums marker lines
      m.indent ++ ticks3 ++ m.language
        ++ (if attrs ≠ [] then ' ' :: attrs else [])
        ++ (if nums ≠ [] then " hl_lines=\"".toList ++ joinSpace nums ++ "\"".toList else [])
        ++ '\n' :: joinNl (specKeptLines marker lines) ++ m.indent ++ ticks3) := by
  simp only [replace_highlight_comments, h, Bool.false_eq_true, if_false,
    hlLoop_fst, hlLoop_snd, List.nil_append, List.length_nil]
  have hnums : specNumsAux (languageMarker m.language) 0
      ((splitNl m.code).dropWhile isBlankLine) =
      specHlNums (languageMarker m.language) ((splitNl m.code).dropWhile isBlankLine) := by
    rw [specNumsAux_eq, specHlNums]
    apply List.filterMap_congr
    intro i _
    simp
  rw [hnums]
  simp [List.append_assoc]

/-- C2 witness: the general statement applied to the concrete fence of
the C1 test, whose attributes are empty. -/
theorem C2_witness :
    replace_highlight_comments
      { indent := [], language := "python".toList, spaces := [],
        attrsRaw := [], code := "x = 1\ny = 2  # highlight-next-line\nz = 3\n".toList } =
      "```python hl_lines=\"2\"\nx = 1\nz = 3\n```".toList := by
  have h := C2_theorem
    { indent := [], language := "python".toList, spaces := [],
      attrsRaw := [], code := "x = 1\ny = 2  # highlight-next-line\nz = 3\n".toList }
    (by decide)
  rw [h]
  decide

/-- C6: for every entry of the redirect table and either URL-style
configuration, the target the emitted stub carries equals the
specification formula: split the new target at '#', normalize the
.ipynb extension, relative path from the old output directory (under
the active configuration) to the new path's directory-style URL, plus
the anchor; and the stub document for that target is among the emitted
stubs. -/
theorem C6_theorem (e : String × String) (he : e ∈ REDIRECT_MAP) (b : Bool) :
    redirectTarget e.1.toList e.2.toList b = specRedirectTarget e.1.toList e.2.toList b ∧
    ((redirectEntry e.1.toList e.2.toList b).1,
      htmlRedirect (specRedirectTarget e.1.toList e.2.toList b)) ∈
        on_post_build_stubs REDIRECT_MAP b := by
  have hall : REDIRECT_MAP.all (fun e =>
      decide (redirectTarget e.1.toList e.2.toList true =
        specRedirectTarget e.1.toList e.2.toList true) &&
      decide (redirectTarget e.1.toList e.2.toList false =
        specRedirectTarget e.1.toList e.2.toList false)) = true := by decide
  have h := List.all_eq_true.mp hall e he
  simp only [Bool.and_eq_true, decide_eq_true_eq] at h
  have heq : redirectTarget e.1.toList e.2.toList b =
      specRedirectTarget e.1.toList e.2.toList b := by
    cases b
    · exact h.2
    · exact h.1
  refine ⟨heq, ?_⟩
  unfold on_post_build_stubs
  apply List.mem_map.mpr
  exact ⟨e, he, by rw [← heq]; rfl⟩

/-- C6 witness: the first table entry under directory-style URLs. -/
theorem C6_witness :
    redirectTarget "how-tos/stream-values.ipynb".toList
        "how-tos/streaming.md#stream-graph-state".toList true =
      specRedirectTarget "how-tos/stream-values.ipynb".toList
        "how-tos/streaming.md#stream-graph-state".toList true :=
  (C6_theorem ("how-tos/stream-values.ipynb", "how-tos/streaming.md#stream-graph-state")
    (by decide) true).1

/-- C7: the table contains the chain dynamic_breakpoints -> breakpoints
and breakpoints -> add-human-in-the-loop; the stub for the first entry
targets breakpoints (the literal mapped value), not the transitive
add-human-in-the-loop target; and every entry of any table is resolved
independently of the other entries. -/
theorem C7_theorem :
    (("how-tos/human_in_the_loop/dynamic_breakpoints.ipynb",
      "how-tos/human_in_the_loop/breakpoints.md") ∈ REDIRECT_MAP) ∧
    (("how-tos/human_in_the_loop/breakpoints.md",
      "how-tos/human_in_the_loop/add-human-in-the-loop.md") ∈ REDIRECT_MAP) ∧
    (∀ b : Bool, redirectTarget "how-tos/human_in_the_loop/dynamic_breakpoints.ipynb".toList
        "how-tos/human_in_the_loop/breakpoints.md".toList b =
      if b then "../breakpoints".toList else "breakpoints".toList) ∧
    (∀ b : Bool, redirectTarget "how-tos/human_in_the_loop/dynamic_breakpoints.ipynb".toList
        "how-tos/human_in_the_loop/breakpoints.md".toList b ≠
      redirectTarget "how-tos/human_in_the_loop/dynamic_breakpoints.ipynb".toList
        "how-tos/human_in_the_loop/add-human-in-the-loop.md".toList b) ∧
    (∀ (table : List (String × String)) (e : String × String) (b : Bool), e ∈ table →
      ((redirectEntry e.1.toList e.2.toList b).1,
        htmlRedirect (redirectTarget e.1.toList e.2.toList b)) ∈
          on_post_build_stubs table b) := by
  refine ⟨by decide, by decide, fun b => by cases b <;> decide,
    fun b => by cases b <;> decide, ?_⟩
  intro table e b he
  unfold on_post_build_stubs
  exact List.mem_map.mpr ⟨e, he, rfl⟩

/-- C7 witness: the independence clause applied to a concrete entry of
the concrete table. -/
theorem C7_witness :
    ((redirectEntry "agents/tools.md".toList "how-tos/tool-calling.md".toList true).1,
      htmlRedirect (redirectTarget "agents/tools.md".toList
        "how-tos/tool-calling.md".toList true)) ∈
      on_post_build_stubs REDIRECT_MAP true :=
  C7_theorem.2.2.2.2 REDIRECT_MAP ("agents/tools.md", "how-tos/tool-calling.md") true
    (by decide)

/-- A list failing a weaker all-test also fails a stronger one. -/
theorem all_mono_false {α : Type} {p q : α → Bool} (hpq : ∀ c, q c = true → p c = true)
    {x : List α} (hx : x.all p = false) : x.all q = false := by
  cases hq : x.all q
  · rfl
  · exact absurd (List.all_eq_true.mpr fun c hc => hpq c (List.all_eq_true.mp hq c hc)) (by simp [hx])

/-- takeWhile runs over a fully satisfying prefix. -/
theorem takeWhile_append_all {α : Type} {p : α → Bool} {x : List α} (y : List α)
    (h : x.all p = true) : (x ++ y).takeWhile p = x ++ y.takeWhile p := by
  induction x with
  | nil => simp
  | cons a x ih =>
    simp only [List.all_cons, Bool.and_eq_true] at h
    simp [List.takeWhile_cons, h.1, ih h.2]

/-- takeWhile stops inside a prefix containing a failing element. -/
theorem takeWhile_append_stop {α : Type} {p : α → Bool} {x : List α} (y : List α)
    (h : x.all p = false) : (x ++ y).takeWhile p = x.takeWhile p := by
  induction x with
  | nil => simp at h
  | cons a x ih =>
    cases hpa : p a
    · simp [List.takeWhile_cons, hpa]
    · simp only [List.all_cons, hpa, Bool.true_and] at h
      simp [List.takeWhile_cons, hpa, ih h]

/-- dropWhile removes a fully satisfying prefix. -/
theorem dropWhile_append_all {α : Type} {p : α → Bool} {x : List α} (y : List α)
    (h : x.all p = true) : (x ++ y).dropWhile p = y.dropWhile p := by
  induction x with
  | nil => simp
  | cons a x ih =>
    simp only [List.all_cons, Bool.and_eq_true] at h
    simp [List.dropWhile_cons, h.1, ih h.2]

/-- dropWhile stops inside a prefix containing a failing element. -/
theorem dropWhile_append_stop {α : Type} {p : α → Bool} {x : List α} (y : List α)
    (h : x.all p = false) : (x ++ y).dropWhile p = x.dropWhile p ++ y := by
  induction x with
  | nil => simp at h
  | cons a x ih =>
    cases hpa : p a
    · simp [List.dropWhile_cons, hpa]
    · simp only [List.all_cons, hpa, Bool.true_and] at h
      simp [List.dropWhile_cons, hpa, ih h]

/-- Dropping the length of the matched prefix is dropWhile. -/
theorem drop_takeWhile_length (p : Char → Bool) (s : List Char) :
    s.drop (s.takeWhile p).length = s.dropWhile p := by
  induction s with
  | nil => rfl
  | cons a s ih =>
    cases hpa : p a
    · simp [List.takeWhile_cons, List.dropWhile_cons, hpa]
    · simp [List.takeWhile_cons, List.dropWhile_cons, hpa, ih]

/-- splitLine on a newline-free line followed by a newline. -/
theorem splitLine_line {x : List Char} (r : List Char) (h : '\n' ∉ x) :
    splitLine (x ++ '\n' :: r) = some (x ++ ['\n'], r) := by
  induction x with
  | nil => simp [splitLine]
  | cons a x ih =>
    simp only [List.mem_cons, not_or] at h
    have ha : ¬ a = '\n' := fun e => h.1 (e ▸ rfl)
    simp [splitLine, ha, ih h.2]

/-- The empty list is a Boolean prefix of everything. -/
theorem isPrefixOf_nil_left (s : List Char) : ([] : List Char).isPrefixOf s = true := by
  cases s <;> rfl

/-- A list is a Boolean prefix of itself extended. -/
theorem isPrefixOf_append_self (x y : List Char) : x.isPrefixOf (x ++ y) = true := by
  induction x with
  | nil => exact isPrefixOf_nil_left y
  | cons a x ih => simp [List.isPrefixOf, ih]

/-- A newline-free needle failing on a line keeps failing when the line
is extended past its terminating newline. -/
theorem isPrefixOf_line_false {needle : List Char} (hn : '\n' ∉ needle) :
    ∀ {y : List Char} (r : List Char), needle.isPrefixOf y = false →
      needle.isPrefixOf (y ++ '\n' :: r) = false := by
  induction needle with
  | nil => intro y r h; simp [List.isPrefixOf] at h
  | cons n ns ih =>
    intro y r h
    simp only [List.mem_cons, not_or] at hn
    cases y with
    | nil =>
      have : (n == '\n') = false := by
        cases hb : n == '\n'
        · rfl
        · exact absurd (Eq.symm (eq_of_beq hb)) hn.1
      simp [List.nil_append, List.isPrefixOf, this]
    | cons a y' =>
      rw [List.cons_append]
      show ((n == a) && ns.isPrefixOf (y' ++ '\n' :: r)) = false
      have h' : ((n == a) && ns.isPrefixOf y') = false := h
      cases hna : n == a
      · simp
      · rw [hna, Bool.true_and] at h'
        rw [ih (fun hm => hn.2 hm) r h']
        simp

/-- The closer test of the conditional pattern fails at a line that
does not open with optional indentation and three colons. -/
theorem condCloserTest_line {X : List Char} (w : List Char)
    (hXw : X.all isPyWs = false)
    (hXc : colon3.isPrefixOf (X.dropWhile isIndentChar) = false) :
    condCloserTest [] (X ++ '\n' :: w) = none := by
  have hXi : X.all isIndentChar = false :=
    all_mono_false (fun c hc => by
      simp only [isIndentChar, Bool.or_eq_true] at hc
      rcases hc with hc | hc <;> simp [isPyWs, hc]) hXw
  unfold condCloserTest
  rw [isPrefixOf_nil_left, if_pos rfl]
  simp only [List.length_nil, List.drop_zero]
  rw [drop_takeWhile_length, dropWhile_append_stop _ hXi]
  rw [isPrefixOf_line_false (by decide) w hXc]
  simp

/-- The closer search of the conditional pattern over a single benign
line closed by a zero-indent `:::` line. -/
theorem findCondCloserF_line {X : List Char} (z : List Char) (k : Nat)
    (hXw : X.all isPyWs = false) (hXn : '\n' ∉ X)
    (hXc : colon3.isPrefixOf (X.dropWhile isIndentChar) = false) :
    findCondCloserF [] (k + 2) (X ++ '\n' :: (':' :: ':' :: ':' :: '\n' :: z)) =
      some (X ++ ['\n'], colon3, '\n' :: z) := by
  have e1 : condCloserTest [] (X ++ '\n' :: (':' :: ':' :: ':' :: '\n' :: z)) = none :=
    condCloserTest_line _ hXw hXc
  have e2 : splitLine (X ++ '\n' :: (':' :: ':' :: ':' :: '\n' :: z)) =
      some (X ++ ['\n'], ':' :: ':' :: ':' :: '\n' :: z) := splitLine_line _ hXn
  have e3 : findCondCloserF [] (k + 1) (':' :: ':' :: ':' :: '\n' :: z) =
      some ([], colon3, '\n' :: z) := rfl
  rw [show k + 2 = (k + 1) + 1 from rfl]
  simp only [findCondCloserF, e1, e2, e3]
  rw [show condCloserTest [] (':' :: ':' :: ':' :: '\n' :: z) =
    some (colon3, '\n' :: z) from rfl]
  simp

/-- Consumption of the regex whitespace-to-newline after the tag of a
conditional block, for a single benign content line. -/
theorem wsToLastNl_line {X : List Char} (r : List Char)
    (hXw : X.all isPyWs = false) (hXn : '\n' ∉ X) :
    wsToLastNl ('\n' :: (X ++ '\n' :: r)) = some (['\n'], X ++ '\n' :: r) := by
  have htw : ('\n' :: (X ++ '\n' :: r)).takeWhile isPyWs = '\n' :: X.takeWhile isPyWs := by
    rw [List.takeWhile_cons]
    simp only [show isPyWs '\n' = true from rfl, if_true]
    rw [takeWhile_append_stop _ hXw]
  have hmem : '\n' ∉ X.takeWhile isPyWs :=
    fun hm => hXn ((List.takeWhile_prefix isPyWs).subset hm)
  unfold wsToLastNl
  rw [htw]
  have hcon : ('\n' :: X.takeWhile isPyWs).contains '\n' = true := by
    simp [List.contains_cons]
  rw [if_pos hcon]
  have hrev : (('\n' :: X.takeWhile isPyWs).reverse.dropWhile (fun c => c ≠ '\n')).reverse
      = ['\n'] := by
    rw [List.reverse_cons]
    have hall : (X.takeWhile isPyWs).reverse.all (fun c => decide (c ≠ '\n')) = true := by
      apply List.all_eq_true.mpr
      intro c hc
      have : c ∈ X.takeWhile isPyWs := List.mem_reverse.mp hc
      simp only [decide_eq_true_eq]
      exact fun e => hmem (e ▸ this)
    rw [dropWhile_append_all _ hall]
    rfl
  rw [hrev]
  rfl

/-- Evaluation of the conditional-block pattern on a block with a
benign single-line body, closed by a zero-indent `:::` line. -/
theorem tryMatchCond_block {lang X : List Char} (z : List Char)
    (hlw : lang.all isWordChar = true) (hl0 : lang ≠ [])
    (hXw : X.all isPyWs = false) (hXn : '\n' ∉ X)
    (hXc : colon3.isPrefixOf (X.dropWhile isIndentChar) = false) :
    tryMatchCond (':' :: ':' :: ':' ::
        (lang ++ '\n' :: (X ++ '\n' :: (':' :: ':' :: ':' :: '\n' :: z)))) =
      some ({ indent := [], language := lang, wsRun := ['\n'],
              content := X ++ ['\n'], closer := colon3 }, '\n' :: z) := by
  have t1 : List.takeWhile isIndentChar (':' :: ':' :: ':' ::
      (lang ++ '\n' :: (X ++ '\n' :: (':' :: ':' :: ':' :: '\n' :: z)))) = [] := rfl
  have t2p : colon3.isPrefixOf (':' :: ':' :: ':' ::
      (lang ++ '\n' :: (X ++ '\n' :: (':' :: ':' :: ':' :: '\n' :: z)))) = true :=
    isPrefixOf_append_self colon3 _
  have d3 : ∀ (a b c : Char) (w : List Char), List.drop 3 (a :: b :: c :: w) = w :=
    fun _ _ _ _ => rfl
  have t2 : (lang ++ '\n' :: (X ++ '\n' :: (':' :: ':' :: ':' :: '\n' :: z))).takeWhile
      isWordChar = lang := by
    rw [takeWhile_append_all _ hlw, List.takeWhile_cons]
    simp [show isWordChar '\n' = false from rfl]
  have hwl := wsToLastNl_line (X := X) (':' :: ':' :: ':' :: '\n' :: z) hXw hXn
  have hlen : (X ++ '\n' :: (':' :: ':' :: ':' :: '\n' :: z)).length + 1 =
      (X.length + z.length + 4) + 2 := by
    simp [List.length_append]
    omega
  have hfc := findCondCloserF_line (X := X) z (X.length + z.length + 4) hXw hXn hXc
  unfold tryMatchCond
  rw [t1]
  simp only [List.length_nil, List.drop_zero]
  rw [t2p, if_pos rfl, d3, t2, if_neg hl0, List.drop_left, hwl]
  dsimp only
  rw [hlen, hfc]

/-- The conditional scan returns the input when it is empty. -/
theorem subCondScanF_nil (target : List Char) (fuel : Nat) :
    subCondScanF target fuel [] = [] := by
  cases fuel <;> rfl

/-- C4: on a document made of a `:::python` block with a benign
single-line body A followed by a `:::js` block with a benign
single-line body B, rendering with selector python keeps A with the
delimiters stripped and removes the js block entirely, and rendering
with selector js keeps B and removes the python block entirely. -/
theorem C4_theorem (A B : List Char)
    (hAw : A.all isPyWs = false) (hAn : '\n' ∉ A)
    (hAc : colon3.isPrefixOf (A.dropWhile isIndentChar) = false)
    (hBw : B.all isPyWs = false) (hBn : '\n' ∉ B)
    (hBc : colon3.isPrefixOf (B.dropWhile isIndentChar) = false) :
    apply_conditional_rendering
        (':' :: ':' :: ':' :: ("python".toList ++ '\n' ::
          (A ++ '\n' :: (':' :: ':' :: ':' :: '\n' ::
            (':' :: ':' :: ':' :: ("js".toList ++ '\n' ::
              (B ++ '\n' :: (':' :: ':' :: ':' :: '\n' :: []))))))))
        "python".toList = .ok (A ++ "\n\n\n".toList) ∧
    apply_conditional_rendering
        (':' :: ':' :: ':' :: ("python".toList ++ '\n' ::
          (A ++ '\n' :: (':' :: ':' :: ':' :: '\n' ::
            (':' :: ':' :: ':' :: ("js".toList ++ '\n' ::
              (B ++ '\n' :: (':' :: ':' :: ':' :: '\n' :: []))))))))
        "js".toList = .ok ('\n' :: (B ++ "\n\n".toList)) := by
  have hscan : ∀ (k : Nat) (target : List Char),
      subCondScanF target (k + 4)
        (':' :: ':' :: ':' :: ("python".toList ++ '\n' ::
          (A ++ '\n' :: (':' :: ':' :: ':' :: '\n' ::
            (':' :: ':' :: ':' :: ("js".toList ++ '\n' ::
              (B ++ '\n' :: (':' :: ':' :: ':' :: '\n' :: [])))))))) =
      replace_conditional_blocks target
          { indent := [], language := "python".toList, wsRun := ['\n'],
            content := A ++ ['\n'], closer := colon3 }
        ++ '\n' ::
          (replace_conditional_blocks target
            { indent := [], language := "js".toList, wsRun := ['\n'],
              content := B ++ ['\n'], closer := colon3 }
          ++ '\n' :: []) := by
    intro k target
    have hm1 := @tryMatchCond_block "python".toList A
      (':' :: ':' :: ':' :: ("js".toList ++ '\n' ::
        (B ++ '\n' :: (':' :: ':' :: ':' :: '\n' :: []))))
      (by decide) (by decide) hAw hAn hAc
    have hm2 := @tryMatchCond_block "js".toList B ([] : List Char)
      (by decide) (by decide) hBw hBn hBc
    have hn1 : ∀ w : List Char, tryMatchCond ('\n' :: w) = none := fun w => rfl
    rw [show k + 4 = (((k + 1) + 1) + 1) + 1 from rfl]
    simp only [subCondScanF, hm1, hm2, hn1, subCondScanF_nil]
  constructor
  · show Except.ok (subCondScanF "python".toList _ _) = _
    have hlen : (':' :: ':' :: ':' :: ("python".toList ++ '\n' ::
        (A ++ '\n' :: (':' :: ':' :: ':' :: '\n' ::
          (':' :: ':' :: ':' :: ("js".toList ++ '\n' ::
            (B ++ '\n' :: (':' :: ':' :: ':' :: '\n' :: [])))))))).length =
        (A.length + B.length + 22) + 4 := by
      simp [List.length_append]
      omega
    rw [hlen, hscan]
    show Except.ok ((A ++ ['\n']) ++ '\n' :: ([] ++ '\n' :: [])) =
      Except.ok (A ++ '\n' :: '\n' :: '\n' :: [])
    simp
  · show Except.ok (subCondScanF "js".toList _ _) = _
    have hlen : (':' :: ':' :: ':' :: ("python".toList ++ '\n' ::
        (A ++ '\n' :: (':' :: ':' :: ':' :: '\n' ::
          (':' :: ':' :: ':' :: ("js".toList ++ '\n' ::
            (B ++ '\n' :: (':' :: ':' :: ':' :: '\n' :: [])))))))).length =
        (A.length + B.length + 22) + 4 := by
      simp [List.length_append]
      omega
    rw [hlen, hscan]
    show Except.ok ([] ++ '\n' :: ((B ++ ['\n']) ++ '\n' :: [])) =
      Except.ok ('\n' :: (B ++ '\n' :: '\n' :: []))
    simp

/-- C4 witness: the statement at the concrete bodies `a = 1` and
`const b = 2`. -/
theorem C4_witness :
    apply_conditional_rendering
        (':' :: ':' :: ':' :: ("python".toList ++ '\n' ::
          ("a = 1".toList ++ '\n' :: (':' :: ':' :: ':' :: '\n' ::
            (':' :: ':' :: ':' :: ("js".toList ++ '\n' ::
              ("const b = 2".toList ++ '\n' :: (':' :: ':' :: ':' :: '\n' :: []))))))))
        "python".toList = .ok ("a = 1".toList ++ "\n\n\n".toList) :=
  ( C4_theorem "a = 1".toList "const b = 2".toList
    (by decide) (by decide) (by decide) (by decide) (by decide) (by decide)).1

/-- takeWhile of a fully satisfying list is the list. -/
theorem takeWhile_eq_self_of_all {α : Type} {p : α → Bool} {x : List α}
    (h : x.all p = true) : x.takeWhile p = x := by
  induction x with
  | nil => rfl
  | cons a x ih =>
    simp only [List.all_cons, Bool.and_eq_true] at h
    simp [List.takeWhile_cons, h.1, ih h.2]

/-- dropWhile of a fully satisfying list is empty. -/
theorem dropWhile_eq_nil_of_all {α : Type} {p : α → Bool} {x : List α}
    (h : x.all p = true) : x.dropWhile p = [] := by
  induction x with
  | nil => rfl
  | cons a x ih =>
    simp only [List.all_cons, Bool.and_eq_true] at h
    simp [List.dropWhile_cons, h.1, ih h.2]

/-- An all-test fails as soon as one member fails. -/
theorem all_eq_false_of_mem {α : Type} {p : α → Bool} {x : List α} {c : α}
    (hc : c ∈ x) (hpc : p c = false) : x.all p = false := by
  cases h : x.all p
  · rfl
  · rw [List.all_eq_true.mp h c hc] at hpc
    cases hpc

/-- takeWhile over a line boundary, for a predicate rejecting the
newline. -/
theorem takeWhile_line {p : Char → Bool} (hp : p '\n' = false) (x y : List Char) :
    (x ++ '\n' :: y).takeWhile p = x.takeWhile p := by
  cases hx : x.all p
  · exact takeWhile_append_stop _ hx
  · rw [takeWhile_append_all _ hx, List.takeWhile_cons, hp, takeWhile_eq_self_of_all hx]
    simp

/-- dropWhile over a line boundary, for a predicate rejecting the
newline. -/
theorem dropWhile_line {p : Char → Bool} (hp : p '\n' = false) (x y : List Char) :
    (x ++ '\n' :: y).dropWhile p = x.dropWhile p ++ '\n' :: y := by
  cases hx : x.all p
  · exact dropWhile_append_stop _ hx
  · rw [dropWhile_append_all _ hx, List.dropWhile_cons, hp, dropWhile_eq_nil_of_all hx]
    simp

/-- A prefix test with a newline-free needle only sees the first
line. -/
theorem isPrefixOf_line {needle : List Char} (hn : '\n' ∉ needle) (l r : List Char) :
    needle.isPrefixOf (l ++ '\n' :: r) = needle.isPrefixOf l := by
  induction needle generalizing l with
  | nil => rw [isPrefixOf_nil_left, isPrefixOf_nil_left]
  | cons n ns ih =>
    simp only [List.mem_cons, not_or] at hn
    cases l with
    | nil =>
      have hb : (n == '\n') = false := by
        cases hb : n == '\n'
        · rfl
        · exact absurd (Eq.symm (eq_of_beq hb)) hn.1
      show ((n == '\n') && ns.isPrefixOf r) = (n :: ns).isPrefixOf []
      rw [hb]
      rfl
    | cons a l' =>
      show ((n == a) && ns.isPrefixOf (l' ++ '\n' :: r)) = ((n == a) && ns.isPrefixOf l')
      have hn' : '\n' ∉ ns := fun hm => hn.2 hm
      rw [ih hn' l']

/-- A prefix test with a needle no longer than the left part of an
append only sees the left part. -/
theorem isPrefixOf_append_of_length {needle C : List Char} (h : needle.length ≤ C.length)
    (A : List Char) : needle.isPrefixOf (C ++ A) = needle.isPrefixOf C := by
  induction needle generalizing C with
  | nil => rw [isPrefixOf_nil_left, isPrefixOf_nil_left]
  | cons n ns ih =>
    cases C with
    | nil => simp at h
    | cons c C' =>
      show ((n == c) && ns.isPrefixOf (C' ++ A)) = ((n == c) && ns.isPrefixOf C')
      rw [ih (Nat.le_of_succ_le_succ h)]

/-- Concatenation of newline-terminated lines. -/
def linesTerm : List (List Char) → List Char
  | [] => []
  | l :: ls => l ++ '\n' :: linesTerm ls

/-- Suffixes of a text starting right after each newline. -/
def nlSuffixes : List Char → List (List Char)
  | [] => []
  | c :: t => if c = '\n' then t :: nlSuffixes t else nlSuffixes t

/-- All line starts of a text: the text itself and the suffix after
every newline. -/
def lineStarts (s : List Char) : List (List Char) := s :: nlSuffixes s

/-- nlSuffixes distributes over concatenation. -/
theorem nlSuffixes_append (x y : List Char) :
    nlSuffixes (x ++ y) = (nlSuffixes x).map (· ++ y) ++ nlSuffixes y := by
  induction x with
  | nil => simp [nlSuffixes]
  | cons a x ih =>
    by_cases ha : a = '\n'
    · simp [nlSuffixes, ha, ih]
    · simp [nlSuffixes, ha, ih]

/-- A newline-free text contributes no newline suffixes. -/
theorem nlSuffixes_eq_nil {x : List Char} (h : '\n' ∉ x) : nlSuffixes x = [] := by
  induction x with
  | nil => rfl
  | cons a x ih =>
    simp only [List.mem_cons, not_or] at h
    have : ¬ a = '\n' := fun e => h.1 e.symm
    simp [nlSuffixes, this, ih h.2]

/-- The newline suffixes of a line followed by more text are the line
starts of the rest. -/
theorem nlSuffixes_line {l : List Char} (hl : '\n' ∉ l) (w : List Char) :
    nlSuffixes (l ++ '\n' :: w) = lineStarts w := by
  rw [nlSuffixes_append, nlSuffixes_eq_nil hl]
  simp [nlSuffixes, lineStarts]

/-- Soundness of splitLine: it splits off the newline-free first line
together with its newline. -/
theorem splitLine_sound {s ln r : List Char} (h : splitLine s = some (ln, r)) :
    ∃ x, ln = x ++ ['\n'] ∧ s = x ++ '\n' :: r ∧ '\n' ∉ x := by
  induction s generalizing ln r with
  | nil => cases h
  | cons c t ih =>
    by_cases hc : c = '\n'
    · subst hc
      rw [splitLine, if_pos rfl] at h
      cases h
      exact ⟨[], rfl, rfl, by simp⟩
    · rw [splitLine, if_neg hc] at h
      cases hsl : splitLine t with
      | none => rw [hsl] at h; cases h
      | some p =>
        rw [hsl] at h
        cases h
        obtain ⟨x, hx1, hx2, hx3⟩ := ih hsl
        exact ⟨c :: x, by simp [hx1], by simp [hx2],
          by simp [hx3]; exact fun e => hc e.symm⟩

/-- splitLine fails exactly on newline-free text. -/
theorem splitLine_none {s : List Char} (h : splitLine s = none) : '\n' ∉ s := by
  induction s with
  | nil => simp
  | cons c t ih =>
    by_cases hc : c = '\n'
    · subst hc; rw [splitLine, if_pos rfl] at h; cases h
    · rw [splitLine, if_neg hc] at h
      simp only [List.mem_cons, not_or]
      cases hsl : splitLine t with
      | none => exact ⟨fun e => hc e.symm, ih hsl⟩
      | some p => rw [hsl] at h; cases h

/-- A successful Boolean prefix test decomposes the text. -/
theorem isPrefixOf_decomp {x s : List Char} (h : x.isPrefixOf s = true) :
    s = x ++ s.drop x.length := by
  have hp : x <+: s := by
    rw [← List.isPrefixOf_iff_prefix]
    exact h
  obtain ⟨t, ht⟩ := hp
  subst ht
  simp

/-- A body line of a fence: newline-free and not opening a closer for
the fence's indent. -/
def GoodLine (ind l : List Char) : Prop :=
  '\n' ∉ l ∧ (ind ++ ticks3).isPrefixOf l = false

/-- The closer needle contains no newline when the indent does not. -/
theorem closer_no_nl {ind : List Char} (hind : '\n' ∉ ind) : '\n' ∉ ind ++ ticks3 := by
  intro hm
  rcases List.mem_append.mp hm with hm | hm
  · exact hind hm
  · simp [ticks3] at hm

/-- Soundness of the closer search: a successful search splits the
text into good newline-terminated body lines, the closer, and the
remainder. -/
theorem findCloserF_sound {ind : List Char} (hind : '\n' ∉ ind) :
    ∀ {fuel s code rest : _}, findCloserF ind fuel s = some (code, rest) →
      ∃ L, code = linesTerm L ∧ (∀ l ∈ L, GoodLine ind l) ∧
        s = code ++ ((ind ++ ticks3) ++ rest) := by
  intro fuel
  induction fuel with
  | zero => intro s code rest h; cases h
  | succ fuel ih =>
    intro s code rest h
    rw [findCloserF] at h
    cases hp : (ind ++ ticks3).isPrefixOf s with
    | true =>
      rw [hp, if_pos rfl] at h
      cases h
      refine ⟨[], rfl, by simp, ?_⟩
      have hd := isPrefixOf_decomp hp
      have hlen : (ind ++ ticks3).length = ind.length + 3 := by simp [ticks3]
      rw [hlen] at hd
      simpa [linesTerm] using hd
    | false =>
      rw [hp] at h
      simp only [Bool.false_eq_true, if_false] at h
      cases hsl : splitLine s with
      | none => rw [hsl] at h; cases h
      | some p =>
        obtain ⟨ln, r⟩ := p
        rw [hsl] at h
        dsimp only at h
        cases hfc : findCloserF ind fuel r with
        | none => rw [hfc] at h; cases h
        | some q =>
          obtain ⟨code', rest'⟩ := q
          rw [hfc] at h
          cases h
          obtain ⟨L, hL1, hL2, hL3⟩ := ih hfc
          obtain ⟨x, hx1, hx2, hx3⟩ := splitLine_sound hsl
          refine ⟨x :: L, ?_, ?_, ?_⟩
          · simp [linesTerm, hx1, hL1]
          · intro l hl
            rcases List.mem_cons.mp hl with hl | hl
            · subst hl
              refine ⟨hx3, ?_⟩
              rw [hx2] at hp
              rwa [isPrefixOf_line (closer_no_nl hind) l r] at hp
            · exact hL2 l hl
          · rw [hx2, hL3, hx1]
            simp

/-- Completeness of the closer search: a body made of good lines
followed by the closer is found again, for any continuation and any
sufficient fuel. -/
theorem findCloserF_complete {ind : List Char} (hind : '\n' ∉ ind) :
    ∀ (L : List (List Char)), (∀ l ∈ L, GoodLine ind l) →
      ∀ (z : List Char) (k : Nat), L.length + 1 ≤ k →
        findCloserF ind k (linesTerm L ++ ((ind ++ ticks3) ++ z)) = some (linesTerm L, z) := by
  intro L
  induction L with
  | nil =>
    intro _ z k hk
    obtain ⟨k', rfl⟩ : ∃ k', k = k' + 1 := ⟨k - 1, by omega⟩
    rw [linesTerm, List.nil_append, findCloserF]
    rw [isPrefixOf_append_self, if_pos rfl]
    have hl3 : ind.length + 3 = (ind ++ ticks3).length := by simp [ticks3]
    rw [hl3, List.drop_left]
  | cons l L' ih =>
    intro hG z k hk
    obtain ⟨k', rfl⟩ : ∃ k', k = k' + 1 := ⟨k - 1, by omega⟩
    have hGl := hG l (by simp)
    have hshape : linesTerm (l :: L') ++ ((ind ++ ticks3) ++ z) =
        l ++ '\n' :: (linesTerm L' ++ ((ind ++ ticks3) ++ z)) := by
      simp [linesTerm]
    rw [hshape, findCloserF]
    rw [isPrefixOf_line (closer_no_nl hind) l _, hGl.2]
    simp only [Bool.false_eq_true, if_false]
    rw [splitLine_line _ hGl.1]
    dsimp only
    rw [ih (fun a ha => hG a (List.mem_cons_of_mem _ ha)) z k' (by simp at hk; omega)]
    simp [linesTerm]

/-- A failing closer search means no line start opens the closer. -/
theorem findCloserF_none_sound {ind : List Char} :
    ∀ (fuel : Nat) (s : List Char), s.length + 1 ≤ fuel → findCloserF ind fuel s = none →
      ∀ p ∈ lineStarts s, (ind ++ ticks3).isPrefixOf p = false := by
  intro fuel
  induction fuel with
  | zero => intro s hlen _; exact absurd hlen (by omega)
  | succ fuel ih =>
    intro s hlen h p hp
    rw [findCloserF] at h
    cases htest : (ind ++ ticks3).isPrefixOf s with
    | true => rw [htest, if_pos rfl] at h; cases h
    | false =>
      rw [htest] at h
      simp only [Bool.false_eq_true, if_false] at h
      cases hsl : splitLine s with
      | none =>
        have hnl := splitLine_none hsl
        rw [lineStarts, nlSuffixes_eq_nil hnl] at hp
        simp only [List.mem_singleton] at hp
        subst hp
        exact htest
      | some pr =>
        obtain ⟨ln, r⟩ := pr
        rw [hsl] at h
        dsimp only at h
        cases hfc : findCloserF ind fuel r with
        | some q => obtain ⟨c', r'⟩ := q; rw [hfc] at h; cases h
        | none =>
          obtain ⟨x, _, hx2, hx3⟩ := splitLine_sound hsl
          rw [lineStarts] at hp
          rcases List.mem_cons.mp hp with hp | hp
          · subst hp; exact htest
          · rw [hx2, nlSuffixes_line hx3] at hp
            refine ih r ?_ hfc p hp
            rw [hx2] at hlen
            simp at hlen
            omega

/-- If no line start opens the closer, the closer search fails for
every fuel. -/
theorem findCloserF_none_complete {ind : List Char} :
    ∀ (fuel : Nat) (s : List Char),
      (∀ p ∈ lineStarts s, (ind ++ ticks3).isPrefixOf p = false) →
      findCloserF ind fuel s = none := by
  intro fuel
  induction fuel with
  | zero => intro s _; rfl
  | succ fuel ih =>
    intro s hall
    rw [findCloserF]
    have h0 : (ind ++ ticks3).isPrefixOf s = false := hall s (by simp [lineStarts])
    rw [h0]
    simp only [Bool.false_eq_true, if_false]
    cases hsl : splitLine s with
    | none => rfl
    | some pr =>
      obtain ⟨ln, r⟩ := pr
      obtain ⟨x, _, hx2, hx3⟩ := splitLine_sound hsl
      have hrec : findCloserF ind fuel r = none := by
        apply ih
        intro p hp
        apply hall
        rw [lineStarts, hx2, nlSuffixes_line hx3]
        exact List.mem_cons_of_mem _ hp
      dsimp only
      rw [hrec]

/-- Members of a takeWhile satisfy the predicate. -/
theorem mem_takeWhile_prop {α : Type} {p : α → Bool} {l : List α} {c : α}
    (hc : c ∈ l.takeWhile p) : p c = true :=
  List.all_eq_true.mp List.all_takeWhile c hc

/-- The head of a dropWhile fails the predicate. -/
theorem dropWhile_cons_head {α : Type} {p : α → Bool} {l : List α} {c : α} {w : List α}
    (h : l.dropWhile p = c :: w) : p c = false := by
  induction l with
  | nil => cases h
  | cons a t ih =>
    rw [List.dropWhile_cons] at h
    by_cases hpa : p a = true
    · rw [if_pos hpa] at h
      exact ih h
    · rw [if_neg hpa] at h
      injection h with h1 h2
      subst h1
      simpa using hpa

/-- A nonempty takeWhile starts like the list itself. -/
theorem takeWhile_cons_decomp {α : Type} {p : α → Bool} {l : List α} {c : α} {w : List α}
    (h : l.takeWhile p = c :: w) : ∃ l', l = c :: l' := by
  cases l with
  | nil => cases h
  | cons a l' =>
    rw [List.takeWhile_cons] at h
    cases hpa : p a
    · rw [hpa] at h; cases h
    · rw [hpa] at h
      simp only [if_true] at h
      cases h
      exact ⟨l', rfl⟩

/-- Structural facts extracted from a successful opener parse. -/
structure OpenerFacts (s : List Char) (g : OpenerParse) (a : List Char) : Prop where
  indent_eq : g.indent = s.takeWhile isIndentChar
  indent_all : g.indent.all isIndentChar = true
  lang_ne : g.language ≠ []
  lang_all : g.language.all isWordChar = true
  sp_all : g.spaces.all (fun c => c = ' ') = true
  attrs_nl : ∀ c ∈ g.attrsRaw, ¬ c = '\n'
  attrs_head : ∀ c w, g.attrsRaw = c :: w → ¬ c = ' '
  afterLang_head : ∀ c w, g.spaces ++ (g.attrsRaw ++ '\n' :: a) = c :: w → isWordChar c = false
  recon : s = g.indent ++ (ticks3 ++ (g.language ++ (g.spaces ++ (g.attrsRaw ++ '\n' :: a))))

/-- Soundness of the opener parse. -/
theorem parseOpener_sound {s : List Char} {g : OpenerParse} {a : List Char}
    (h : parseOpener s = some (g, a)) : OpenerFacts s g a := by
  simp only [parseOpener] at h
  split at h
  case isFalse => exact absurd h (by simp)
  case isTrue hp =>
    split at h
    case isTrue => exact absurd h (by simp)
    case isFalse hl =>
      split at h
      case h_2 => exact absurd h (by simp)
      case h_1 s6 heq =>
        simp only [Option.some.injEq, Prod.mk.injEq] at h
        obtain ⟨hg, ha⟩ := h
        subst hg
        subst ha
        have e1 : List.drop (s.takeWhile isIndentChar).length s = s.dropWhile isIndentChar :=
          drop_takeWhile_length _ _
        rw [e1] at hp hl heq ⊢
        have e3 : ∀ (x : List Char),
            List.drop (x.takeWhile isWordChar).length x = x.dropWhile isWordChar :=
          fun x => drop_takeWhile_length _ _
        rw [e3] at heq ⊢
        have e4 : ∀ (x : List Char),
            List.drop (x.takeWhile (fun c => c = ' ')).length x =
              x.dropWhile (fun c => c = ' ') :=
          fun x => drop_takeWhile_length _ _
        rw [e4] at heq ⊢
        have e5 : ∀ (x : List Char),
            List.drop (x.takeWhile (fun c => c ≠ '\n')).length x =
              x.dropWhile (fun c => c ≠ '\n') :=
          fun x => drop_takeWhile_length _ _
        rw [e5] at heq
        have r2 : s.dropWhile isIndentChar =
            ticks3 ++ (s.dropWhile isIndentChar).drop 3 := isPrefixOf_decomp hp
        have r3 : (s.dropWhile isIndentChar).drop 3 =
            ((s.dropWhile isIndentChar).drop 3).takeWhile isWordChar ++
              ((s.dropWhile isIndentChar).drop 3).dropWhile isWordChar :=
          (List.takeWhile_append_dropWhile _ _).symm
        have r4 : ((s.dropWhile isIndentChar).drop 3).dropWhile isWordChar =
            (((s.dropWhile isIndentChar).drop 3).dropWhile isWordChar).takeWhile
                (fun c => c = ' ') ++
              (((s.dropWhile isIndentChar).drop 3).dropWhile isWordChar).dropWhile
                (fun c => c = ' ') :=
          (List.takeWhile_append_dropWhile _ _).symm
        have r5 : (((s.dropWhile isIndentChar).drop 3).dropWhile isWordChar).dropWhile
              (fun c => c = ' ') =
            ((((s.dropWhile isIndentChar).drop 3).dropWhile isWordChar).dropWhile
                (fun c => c = ' ')).takeWhile (fun c => c ≠ '\n') ++
              ((((s.dropWhile isIndentChar).drop 3).dropWhile isWordChar).dropWhile
                (fun c => c = ' ')).dropWhile (fun c => c ≠ '\n') :=
          (List.takeWhile_append_dropWhile _ _).symm
        have hD1 : ((s.dropWhile isIndentChar).drop 3).dropWhile isWordChar =
            (((s.dropWhile isIndentChar).drop 3).dropWhile isWordChar).takeWhile
                (fun c => c = ' ') ++
              (((((s.dropWhile isIndentChar).drop 3).dropWhile isWordChar).dropWhile
                  (fun c => c = ' ')).takeWhile (fun c => c ≠ '\n') ++
                '\n' :: s6) :=
          r4.trans (congrArg _ (r5.trans (congrArg _ heq)))
        refine ⟨rfl, List.all_takeWhile, hl, List.all_takeWhile, List.all_takeWhile,
          ?_, ?_, ?_, ?_⟩
        · intro c hc
          have := mem_takeWhile_prop hc
          simpa using this
        · intro c w hcw
          obtain ⟨l', hl'⟩ := takeWhile_cons_decomp hcw
          have := dropWhile_cons_head (p := fun c => c = ' ') hl'
          simpa using this
        · intro c w hcw
          exact dropWhile_cons_head (hD1.trans hcw)
        · have r1 : s = s.takeWhile isIndentChar ++ s.dropWhile isIndentChar :=
            (List.takeWhile_append_dropWhile _ _).symm
          exact r1.trans (congrArg _ (r2.trans (congrArg _ (r3.trans (congrArg _ hD1)))))

/-- Indent characters are never a newline. -/
theorem all_indent_no_nl {l : List Char} (h : l.all isIndentChar = true) : '\n' ∉ l := by
  intro hm
  have := List.all_eq_true.mp h '\n' hm
  simp [isIndentChar] at this

/-- Indent characters are never a backtick. -/
theorem all_indent_no_tick {l : List Char} (h : l.all isIndentChar = true) : '\x60' ∉ l := by
  intro hm
  have := List.all_eq_true.mp h '\x60' hm
  simp [isIndentChar] at this

/-- takeWhile stops at an appended part whose head fails the
predicate. -/
theorem takeWhile_append_break {α : Type} {p : α → Bool} {x D : List α}
    (hD : ∀ c, D.head? = some c → p c = false) : (x ++ D).takeWhile p = x.takeWhile p := by
  cases hx : x.all p
  · exact takeWhile_append_stop _ hx
  · rw [takeWhile_append_all _ hx]
    have hD0 : D.takeWhile p = [] := by
      cases D with
      | nil => rfl
      | cons d D' =>
        rw [List.takeWhile_cons, hD d rfl]
        simp
    rw [hD0, List.append_nil, takeWhile_eq_self_of_all hx]

/-- dropWhile stops at an appended part whose head fails the
predicate. -/
theorem dropWhile_append_break {α : Type} {p : α → Bool} {x D : List α}
    (hD : ∀ c, D.head? = some c → p c = false) : (x ++ D).dropWhile p = x.dropWhile p ++ D := by
  cases hx : x.all p
  · exact dropWhile_append_stop _ hx
  · rw [dropWhile_append_all _ hx, dropWhile_eq_nil_of_all hx, List.nil_append]
    cases D with
    | nil => rfl
    | cons d D' =>
      rw [List.dropWhile_cons, hD d rfl]
      simp

/-- splitNl splits off a newline-free first line. -/
theorem splitNl_line {l : List Char} (hl : '\n' ∉ l) (t : List Char) :
    splitNl (l ++ '\n' :: t) = l :: splitNl t := by
  induction l with
  | nil => simp [splitNl]
  | cons a l ih =>
    simp only [List.mem_cons, not_or] at hl
    have ha : ¬ a = '\n' := fun e => hl.1 e.symm
    rw [List.cons_append, splitNl, if_neg ha, ih hl.2]

/-- splitNl recovers the lines of a newline-terminated body, plus the
empty fragment after the final newline. -/
theorem splitNl_linesTerm {L : List (List Char)} (h : ∀ l ∈ L, '\n' ∉ l) :
    splitNl (linesTerm L) = L ++ [[]] := by
  induction L with
  | nil => rfl
  | cons l L ih =>
    rw [linesTerm, splitNl_line (h l (by simp)) _, ih (fun a ha => h a (by simp [ha]))]
    rfl

/-- Joining lines that end with an empty fragment produces the
newline-terminated body. -/
theorem joinNl_term : ∀ (K : List (List Char)), joinNl (K ++ [[]]) = linesTerm K
  | [] => rfl
  | [l] => rfl
  | l :: l' :: K => by
    have h2 := joinNl_term (l' :: K)
    calc joinNl ((l :: l' :: K) ++ [[]])
        = l ++ '\n' :: joinNl ((l' :: K) ++ [[]]) := by simp only [List.cons_append, joinNl]; rfl
      _ = l ++ '\n' :: linesTerm (l' :: K) := by rw [h2]

/-- Substring search in an empty text fails for a nonempty needle. -/
theorem containsSub_nil_ne {n : List Char} (h : n ≠ []) : containsSub n [] = false := by
  cases n with
  | nil => exact absurd rfl h
  | cons a n' => rfl

/-- A prefix is a substring. -/
theorem containsSub_of_prefix {n hay : List Char} (hp : n.isPrefixOf hay = true) :
    containsSub n hay = true := by
  cases hay with
  | nil => exact hp
  | cons c t => rw [containsSub, hp, Bool.true_or]

/-- A substring of the tail is a substring. -/
theorem containsSub_cons_or {n : List Char} (c : Char) {t : List Char}
    (h : containsSub n t = true) : containsSub n (c :: t) = true := by
  rw [containsSub, h, Bool.or_true]

/-- A needle occurring literally in the middle is found. -/
theorem containsSub_append_mid (n : List Char) :
    ∀ (a b : List Char), containsSub n (a ++ (n ++ b)) = true
  | [], b => containsSub_of_prefix (isPrefixOf_append_self n b)
  | c :: a', b => by
    rw [List.cons_append]
    exact containsSub_cons_or c (containsSub_append_mid n a' b)

/-- rstrip yields a prefix of its input. -/
theorem rstrip_prefix (l : List Char) : rstripChars l <+: l := by
  rw [rstripChars]
  obtain ⟨t, ht⟩ := List.dropWhile_suffix (l := l.reverse) (p := isPyWs)
  refine ⟨t.reverse, ?_⟩
  rw [← List.reverse_append, ht, List.reverse_reverse]

/-- rstrip preserves the head of a nonempty result. -/
theorem rstrip_head {l : List Char} {c : Char} {w : List Char}
    (h : rstripChars l = c :: w) : ∃ w', l = c :: w' := by
  obtain ⟨t, ht⟩ := rstrip_prefix l
  rw [h] at ht
  exact ⟨w ++ t, by rw [← ht]; simp⟩

/-- rstrip is idempotent. -/
theorem rstrip_idem (l : List Char) : rstripChars (rstripChars l) = rstripChars l := by
  rw [rstripChars, rstripChars, List.reverse_reverse]
  congr 1
  cases hd : l.reverse.dropWhile isPyWs with
  | nil => rfl
  | cons a t =>
    rw [List.dropWhile_cons, dropWhile_cons_head hd]
    simp

/-- rstrip leaves a text ending in a non-whitespace character
unchanged. -/
theorem rstrip_append_nonws {c : Char} (hc : isPyWs c = false) (y : List Char) :
    rstripChars (y ++ [c]) = y ++ [c] := by
  rw [rstripChars]
  have h1 : (y ++ [c]).reverse = c :: y.reverse := by simp
  rw [h1, List.dropWhile_cons, hc]
  simp

/-- Members of an rstripped text come from the original. -/
theorem mem_rstrip {l : List Char} {c : Char} (h : c ∈ rstripChars l) : c ∈ l := by
  obtain ⟨t, ht⟩ := rstrip_prefix l
  rw [← ht]
  exact List.mem_append_left _ h

/-- Decimal digits are not a newline. -/
theorem digitChar10_ne {d : Nat} (hd : d < 10) : digitChar10 d ≠ '\n' := by
  interval_cases d <;> decide

/-- Characters of the fuelled decimal printer are digits or come from
the accumulator. -/
theorem natCharsF_mem : ∀ (fuel n : Nat) (acc : List Char) (c : Char),
    c ∈ natCharsF fuel n acc → c ∈ acc ∨ ∃ d, d < 10 ∧ c = digitChar10 d := by
  intro fuel
  induction fuel with
  | zero => intro n acc c hc; exact Or.inl hc
  | succ fuel ih =>
    intro n acc c hc
    rw [natCharsF] at hc
    by_cases hn : n < 10
    · rw [if_pos hn] at hc
      rcases List.mem_cons.mp hc with h | h
      · exact Or.inr ⟨n, hn, h⟩
      · exact Or.inl h
    · rw [if_neg hn] at hc
      rcases ih (n / 10) _ c hc with h | h
      · rcases List.mem_cons.mp h with h2 | h2
        · exact Or.inr ⟨n % 10, Nat.mod_lt _ (by omega), h2⟩
        · exact Or.inl h2
      · exact Or.inr h

/-- Decimal representations contain no newline. -/
theorem natChars_no_nl (n : Nat) : '\n' ∉ natChars n := by
  intro hm
  rcases natCharsF_mem _ _ _ _ hm with h | ⟨d, hd, he⟩
  · simp at h
  · exact digitChar10_ne hd he.symm

/-- Joining with spaces introduces no newline. -/
theorem joinSpace_no_nl : ∀ {ls : List (List Char)}, (∀ l ∈ ls, '\n' ∉ l) → '\n' ∉ joinSpace ls
  | [], _ => by simp [joinSpace]
  | [l], h => by simpa [joinSpace] using h l (by simp)
  | l :: l' :: t, h => by
    intro hm
    have he : joinSpace (l :: l' :: t) = l ++ ' ' :: joinSpace (l' :: t) := rfl
    rw [he] at hm
    rcases List.mem_append.mp hm with h1 | h1
    · exact h l (by simp) h1
    · rcases List.mem_cons.mp h1 with h2 | h2
      · exact absurd h2 (by decide)
      · exact joinSpace_no_nl (fun a ha => h a (by simp [ha])) h2

/-- An empty number record means no line bears the marker. -/
theorem specNumsAux_eq_nil {marker : List Char} :
    ∀ (ls : List (List Char)) (base : Nat), specNumsAux marker base ls = [] →
      ∀ l ∈ ls, containsSub marker l = false := by
  intro ls
  induction ls with
  | nil => intro base _ l hl; simp at hl
  | cons l0 ls ih =>
    intro base h l hl
    rw [specNumsAux] at h
    by_cases hc : containsSub marker l0 = true
    · rw [if_pos hc] at h; cases h
    · rw [if_neg hc] at h
      rcases List.mem_cons.mp hl with h1 | h1
      · subst h1
        cases hcc : containsSub marker l with
        | false => rfl
        | true => exact absurd hcc hc
      · exact ih (base + 1) h l h1

/-- Recorded numbers are decimal representations. -/
theorem mem_specNumsAux {marker : List Char} :
    ∀ (ls : List (List Char)) (base : Nat) (x : List Char), x ∈ specNumsAux marker base ls →
      ∃ m, x = natChars m := by
  intro ls
  induction ls with
  | nil => intro base x hx; simp [specNumsAux] at hx
  | cons l0 ls ih =>
    intro base x hx
    rw [specNumsAux] at hx
    by_cases hc : containsSub marker l0 = true
    · rw [if_pos hc] at hx
      rcases List.mem_cons.mp hx with h1 | h1
      · exact ⟨base + 1, h1⟩
      · exact ih base x h1
    · rw [if_neg hc] at hx
      exact ih (base + 1) x hx

/-- The marker comment of any language is nonempty. -/
theorem languageMarker_ne_nil (lang : List Char) : languageMarker lang ≠ [] := by
  rw [languageMarker]
  split <;> simp [pyMarker, slashMarker]

/-- A newline-terminated body has at least as many characters as
lines. -/
theorem linesTerm_len : ∀ (L : List (List Char)), L.length ≤ (linesTerm L).length
  | [] => by simp [linesTerm]
  | l :: L => by
    have := linesTerm_len L
    simp only [linesTerm, List.length_cons, List.length_append]
    omega

/-- head? determines a cons decomposition. -/
theorem head?_eq_cons {α : Type} {x : List α} {c : α} (h : x.head? = some c) :
    ∃ x', x = c :: x' := by
  cases x with
  | nil => cases h
  | cons a t =>
    simp only [List.head?_cons, Option.some.injEq] at h
    exact ⟨t, by rw [h]⟩


/-- Dropping the measured takeWhile prefix from an extended list leaves
the dropWhile remainder and the extension. -/
theorem drop_takeWhile_append {α : Type} (p : α → Bool) (x y : List α) :
    List.drop (x.takeWhile p).length (x ++ y) = x.dropWhile p ++ y := by
  have hsplit : x ++ y = x.takeWhile p ++ (x.dropWhile p ++ y) := by
    rw [← List.append_assoc, List.takeWhile_append_dropWhile]
  rw [hsplit, List.drop_left]

/-- Newline-freedom as an all-test. -/
theorem all_ne_nl_of_not_mem {l : List Char} (h : '\n' ∉ l) :
    l.all (fun c => c ≠ '\n') = true :=
  List.all_eq_true.mpr fun c hc => by
    simp only [decide_eq_true_eq]
    exact fun e => h (e ▸ hc)

/-- Opening-line parse of code_block_pattern on a single newline-free
line: the groups of parseOpener, with the attribute group running to
the end of the line.  Connected to parseOpener by parseOpener_line. -/
def openerLine (w : List Char) : Option OpenerParse :=
  let ind := w.takeWhile isIndentChar
  let w1 := w.dropWhile isIndentChar
  if ticks3.isPrefixOf w1 then
    let w2 := w1.drop 3
    let lang := w2.takeWhile isWordChar
    if lang = [] then none
    else
      let w3 := w2.dropWhile isWordChar
      some { indent := ind, language := lang,
             spaces := w3.takeWhile (fun c => c = ' '),
             attrsRaw := w3.dropWhile (fun c => c = ' ') }
  else none

/-- parseOpener on a text whose first line is newline-free factors
through the line parse, uniformly in the text after the newline. -/
theorem parseOpener_line {w : List Char} (hw : '\n' ∉ w) (v : List Char) :
    parseOpener (w ++ '\n' :: v) = (openerLine w).map (fun g => (g, v)) := by
  have e0 : (w ++ '\n' :: v).takeWhile isIndentChar = w.takeWhile isIndentChar :=
    takeWhile_line (by decide) w _
  simp only [parseOpener, openerLine, e0, drop_takeWhile_append]
  rw [isPrefixOf_line (by decide) (w.dropWhile isIndentChar) v]
  by_cases hp : ticks3.isPrefixOf (w.dropWhile isIndentChar) = true
  · rw [if_pos hp, if_pos hp]
    have hlen3 : 3 ≤ (w.dropWhile isIndentChar).length := by
      have := (List.isPrefixOf_iff_prefix.mp hp).length_le
      simpa [ticks3] using this
    rw [List.drop_append_of_le_length hlen3]
    rw [takeWhile_line (by decide) ((w.dropWhile isIndentChar).drop 3) v]
    by_cases hl : ((w.dropWhile isIndentChar).drop 3).takeWhile isWordChar = []
    · rw [if_pos hl, if_pos hl]
      rfl
    · rw [if_neg hl, if_neg hl]
      rw [drop_takeWhile_append]
      rw [takeWhile_line (by decide) (((w.dropWhile isIndentChar).drop 3).dropWhile isWordChar) v]
      rw [drop_takeWhile_append]
      have hY : '\n' ∉ (((w.dropWhile isIndentChar).drop 3).dropWhile isWordChar).dropWhile
          (fun c => c = ' ') := by
        intro hm
        apply hw
        have s1 : List.Sublist ((((w.dropWhile isIndentChar).drop 3).dropWhile
            isWordChar).dropWhile (fun c => c = ' ')) w :=
          (((List.dropWhile_sublist _).trans (List.dropWhile_sublist _)).trans
            (List.drop_sublist _ _)).trans (List.dropWhile_sublist _)
        exact s1.subset hm
      rw [takeWhile_line (by decide)
        ((((w.dropWhile isIndentChar).drop 3).dropWhile isWordChar).dropWhile (fun c => c = ' ')) v]
      rw [takeWhile_eq_self_of_all (all_ne_nl_of_not_mem hY)]
      rw [List.drop_left]
      rfl
  · rw [if_neg hp, if_neg hp]
    rfl


/-- Prefix test of the three backticks against a text with a different
first character. -/
theorem isPrefixOf_ticks3_cons_ne {a : Char} (h : a ≠ '\x60') (y : List Char) :
    ticks3.isPrefixOf (a :: y) = false := by
  have hb : ('\x60' == a) = false := beq_eq_false_iff_ne.mpr (fun e => h e.symm)
  simp [ticks3, List.isPrefixOf, hb]

/-- Prefix test of the three backticks failing at the second
character. -/
theorem isPrefixOf_ticks3_cons2_ne {b : Char} (h : b ≠ '\x60') (y : List Char) :
    ticks3.isPrefixOf ('\x60' :: b :: y) = false := by
  have hb : ('\x60' == b) = false := beq_eq_false_iff_ne.mpr (fun e => h e.symm)
  simp [ticks3, List.isPrefixOf, hb]

/-- Prefix test of the three backticks failing at the third
character. -/
theorem isPrefixOf_ticks3_cons3_ne {c : Char} (h : c ≠ '\x60') (y : List Char) :
    ticks3.isPrefixOf ('\x60' :: '\x60' :: c :: y) = false := by
  have hb : ('\x60' == c) = false := beq_eq_false_iff_ne.mpr (fun e => h e.symm)
  simp [ticks3, List.isPrefixOf, hb]

/-- Prefix test of the three backticks succeeding on three leading
backticks. -/
theorem isPrefixOf_ticks3_cons3 (y : List Char) :
    ticks3.isPrefixOf ('\x60' :: '\x60' :: '\x60' :: y) = true := by
  simp [ticks3, List.isPrefixOf]

/-- Indent characters are not backticks. -/
theorem indentChar_ne_tick {i : Char} (h : isIndentChar i = true) : i ≠ '\x60' := by
  rcases (by simpa [isIndentChar] using h : i = ' ' ∨ i = '\t') with e | e <;>
    (subst e; decide)

/-- Indent characters are not word characters. -/
theorem indentChar_not_word {i : Char} (h : isIndentChar i = true) : isWordChar i = false := by
  rcases (by simpa [isIndentChar] using h : i = ' ' ∨ i = '\t') with e | e <;>
    (subst e; decide)

/-- The head of an indent-then-backticks text is never a word
character. -/
theorem indTicks_head_nonword {ind : List Char} (hind : ind.all isIndentChar = true)
    (X : List Char) : ∀ c, (ind ++ (ticks3 ++ X)).head? = some c → isWordChar c = false := by
  intro c hc
  cases ind with
  | nil =>
    rw [List.nil_append, show ticks3 ++ X = '\x60' :: ('\x60' :: '\x60' :: X) from rfl,
      List.head?_cons] at hc
    simp only [Option.some.injEq] at hc
    rw [← hc]
    decide
  | cons i ind' =>
    rw [List.cons_append, List.head?_cons] at hc
    simp only [Option.some.injEq] at hc
    rw [← hc]
    exact indentChar_not_word (List.all_eq_true.mp hind i (by simp))

/-- Construction form of the line parse on a well-shaped opening
line. -/
theorem openerLine_build {ind lang q : List Char}
    (hind : ind.all isIndentChar = true)
    (hlangne : lang ≠ [])
    (hlang : lang.all isWordChar = true)
    (hqh : ∀ c, q.head? = some c → isWordChar c = false) :
    openerLine (ind ++ (ticks3 ++ (lang ++ q))) =
      some { indent := ind, language := lang,
             spaces := q.takeWhile (fun c => c = ' '),
             attrsRaw := q.dropWhile (fun c => c = ' ') } := by
  have h1 : ticks3 ++ (lang ++ q) = '\x60' :: ('\x60' :: '\x60' :: (lang ++ q)) := rfl
  have htw : (ticks3 ++ (lang ++ q)).takeWhile isIndentChar = [] := by
    rw [h1, List.takeWhile_cons]
    simp [isIndentChar]
  have hdw : (ticks3 ++ (lang ++ q)).dropWhile isIndentChar = ticks3 ++ (lang ++ q) := by
    rw [h1, List.dropWhile_cons]
    simp [isIndentChar]
  simp only [openerLine]
  rw [takeWhile_append_all _ hind, htw, List.append_nil,
    dropWhile_append_all _ hind, hdw]
  rw [isPrefixOf_append_self, if_pos rfl]
  rw [show (3 : Nat) = ticks3.length from rfl, List.drop_left]
  rw [takeWhile_append_break hqh, takeWhile_eq_self_of_all hlang, if_neg hlangne]
  rw [dropWhile_append_break hqh, dropWhile_eq_nil_of_all hlang, List.nil_append]

/-- Construction form of parseOpener on a well-shaped opening line
followed by a newline. -/
theorem parseOpener_build {ind lang sp attrs t : List Char}
    (hind : ind.all isIndentChar = true)
    (hlangne : lang ≠ [])
    (hlang : lang.all isWordChar = true)
    (hsp : sp.all (fun c => c = ' ') = true)
    (hattrs : '\n' ∉ attrs)
    (hattrs_head : ∀ c, attrs.head? = some c → ¬ c = ' ')
    (hafter : ∀ c, (sp ++ attrs).head? = some c → isWordChar c = false) :
    parseOpener (ind ++ (ticks3 ++ (lang ++ (sp ++ (attrs ++ '\n' :: t))))) =
      some ({ indent := ind, language := lang, spaces := sp, attrsRaw := attrs }, t) := by
  have hw : '\n' ∉ ind ++ (ticks3 ++ (lang ++ (sp ++ attrs))) := by
    intro hm
    rcases List.mem_append.mp hm with h | h
    · exact all_indent_no_nl hind h
    · rcases List.mem_append.mp h with h | h
      · simp [ticks3] at h
      · rcases List.mem_append.mp h with h | h
        · exact absurd (List.all_eq_true.mp hlang _ h) (by decide)
        · rcases List.mem_append.mp h with h | h
          · exact absurd (List.all_eq_true.mp hsp _ h) (by decide)
          · exact hattrs h
  have hshape : ind ++ (ticks3 ++ (lang ++ (sp ++ (attrs ++ '\n' :: t))))
      = (ind ++ (ticks3 ++ (lang ++ (sp ++ attrs)))) ++ '\n' :: t := by
    simp [List.append_assoc]
  have hah : ∀ c, attrs.head? = some c → (fun c => decide (c = ' ')) c = false :=
    fun c h => decide_eq_false (hattrs_head c h)
  rw [hshape, parseOpener_line hw t, openerLine_build hind hlangne hlang hafter]
  rw [takeWhile_append_break hah, takeWhile_eq_self_of_all hsp,
    dropWhile_append_break hah, dropWhile_eq_nil_of_all hsp, List.nil_append]
  rfl

/-- Stability of the line parse under exchange of the part after the
language group: for a context followed by a well-shaped fence head and
any tail opening with a non-word character, the parse either fails for
every such tail or succeeds for every such tail, and the indent group
does not depend on the tail. -/
theorem openerLine_stable {u ind lang q q' : List Char}
    (hind : ind.all isIndentChar = true)
    (hlangne : lang ≠ []) (hlang : lang.all isWordChar = true)
    (hqh : ∀ c, q.head? = some c → isWordChar c = false)
    (hqh' : ∀ c, q'.head? = some c → isWordChar c = false) :
    (openerLine (u ++ (ind ++ (ticks3 ++ (lang ++ q)))) = none ∧
     openerLine (u ++ (ind ++ (ticks3 ++ (lang ++ q')))) = none) ∨
    (∃ g g', openerLine (u ++ (ind ++ (ticks3 ++ (lang ++ q)))) = some g ∧
       openerLine (u ++ (ind ++ (ticks3 ++ (lang ++ q')))) = some g' ∧
       g.indent = g'.indent) := by
  by_cases hua : u.all isIndentChar = true
  · right
    have hall : (u ++ ind).all isIndentChar = true := by
      simp [List.all_append, hua, hind]
    have h1 : ∀ (qq : List Char), u ++ (ind ++ (ticks3 ++ (lang ++ qq)))
        = (u ++ ind) ++ (ticks3 ++ (lang ++ qq)) := by
      intro qq
      simp [List.append_assoc]
    refine ⟨{ indent := u ++ ind, language := lang,
              spaces := q.takeWhile (fun c => c = ' '),
              attrsRaw := q.dropWhile (fun c => c = ' ') },
      { indent := u ++ ind, language := lang,
        spaces := q'.takeWhile (fun c => c = ' '),
        attrsRaw := q'.dropWhile (fun c => c = ' ') }, ?_, ?_, rfl⟩
    · rw [h1 q]
      exact openerLine_build hall hlangne hlang hqh
    · rw [h1 q']
      exact openerLine_build hall hlangne hlang hqh'
  · have hfa : u.all isIndentChar = false := by
      cases h : u.all isIndentChar
      · rfl
      · exact absurd h hua
    obtain ⟨a, u₂, hau⟩ : ∃ a u₂, u.dropWhile isIndentChar = a :: u₂ := by
      cases hc : u.dropWhile isIndentChar with
      | nil =>
        exact absurd (List.all_eq_true.mpr fun c hc2 => by
          have := List.dropWhile_eq_nil_iff.mp hc
          exact this c hc2) hua
      | cons a u₂ => exact ⟨a, u₂, rfl⟩
    have ha : isIndentChar a = false := dropWhile_cons_head hau
    have eI : ∀ (Z : List Char), (u ++ Z).takeWhile isIndentChar = u.takeWhile isIndentChar :=
      fun Z => takeWhile_append_stop Z hfa
    have eD : ∀ (Z : List Char), (u ++ Z).dropWhile isIndentChar = a :: (u₂ ++ Z) := by
      intro Z
      rw [dropWhile_append_stop Z hfa, hau]
      rfl
    by_cases hab : a = '\x60'
    · subst hab
      cases u₂ with
      | nil =>
        cases ind with
        | nil =>
          left
          have main : ∀ (qq : List Char),
              openerLine (u ++ ([] ++ (ticks3 ++ (lang ++ qq)))) = none := by
            intro qq
            simp only [openerLine]
            rw [eD]
            simp only [List.cons_append, List.nil_append]
            rw [show ticks3 ++ (lang ++ qq)
              = '\x60' :: ('\x60' :: '\x60' :: (lang ++ qq)) from rfl]
            rw [isPrefixOf_ticks3_cons3, if_pos rfl]
            simp only [List.drop_succ_cons, List.drop_zero]
            rw [List.takeWhile_cons, show isWordChar '\x60' = false from by decide]
            simp
          exact ⟨main q, main q'⟩
        | cons i ind' =>
          left
          have hi : i ≠ '\x60' := indentChar_ne_tick (List.all_eq_true.mp hind i (by simp))
          have main : ∀ (qq : List Char),
              openerLine (u ++ ((i :: ind') ++ (ticks3 ++ (lang ++ qq)))) = none := by
            intro qq
            simp only [openerLine]
            rw [eD]
            simp only [List.cons_append, List.nil_append]
            rw [isPrefixOf_ticks3_cons2_ne hi]
            simp
          exact ⟨main q, main q'⟩
      | cons b u₃ =>
        by_cases hbb : b = '\x60'
        · subst hbb
          cases u₃ with
          | nil =>
            cases ind with
            | nil =>
              left
              have main : ∀ (qq : List Char),
                  openerLine (u ++ ([] ++ (ticks3 ++ (lang ++ qq)))) = none := by
                intro qq
                simp only [openerLine]
                rw [eD]
                simp only [List.cons_append, List.nil_append]
                rw [show ticks3 ++ (lang ++ qq)
                  = '\x60' :: ('\x60' :: '\x60' :: (lang ++ qq)) from rfl]
                rw [isPrefixOf_ticks3_cons3, if_pos rfl]
                simp only [List.drop_succ_cons, List.drop_zero]
                rw [List.takeWhile_cons, show isWordChar '\x60' = false from by decide]
                simp
              exact ⟨main q, main q'⟩
            | cons i ind' =>
              left
              have hi : i ≠ '\x60' := indentChar_ne_tick (List.all_eq_true.mp hind i (by simp))
              have main : ∀ (qq : List Char),
                  openerLine (u ++ ((i :: ind') ++ (ticks3 ++ (lang ++ qq)))) = none := by
                intro qq
                simp only [openerLine]
                rw [eD]
                simp only [List.cons_append, List.nil_append]
                rw [isPrefixOf_ticks3_cons3_ne hi]
                simp
              exact ⟨main q, main q'⟩
          | cons c₃ u₄ =>
            by_cases hcc : c₃ = '\x60'
            · subst hcc
              have hZh : ∀ (qq : List Char) (c : Char),
                  (ind ++ (ticks3 ++ (lang ++ qq))).head? = some c → isWordChar c = false :=
                fun qq => indTicks_head_nonword hind (lang ++ qq)
              by_cases hlg : u₄.takeWhile isWordChar = []
              · left
                have main : ∀ (qq : List Char),
                    openerLine (u ++ (ind ++ (ticks3 ++ (lang ++ qq)))) = none := by
                  intro qq
                  simp only [openerLine]
                  rw [eD]
                  simp only [List.cons_append, List.nil_append]
                  rw [isPrefixOf_ticks3_cons3, if_pos rfl]
                  simp only [List.drop_succ_cons, List.drop_zero]
                  rw [takeWhile_append_break (hZh qq), hlg, if_pos rfl]
                exact ⟨main q, main q'⟩
              · right
                have main : ∀ (qq : List Char),
                    openerLine (u ++ (ind ++ (ticks3 ++ (lang ++ qq)))) =
                      some { indent := u.takeWhile isIndentChar,
                             language := u₄.takeWhile isWordChar,
                             spaces := (u₄.dropWhile isWordChar
                               ++ (ind ++ (ticks3 ++ (lang ++ qq)))).takeWhile
                                 (fun c => c = ' '),
                             attrsRaw := (u₄.dropWhile isWordChar
                               ++ (ind ++ (ticks3 ++ (lang ++ qq)))).dropWhile
                                 (fun c => c = ' ') } := by
                  intro qq
                  simp only [openerLine]
                  rw [eD]
                  simp only [List.cons_append, List.nil_append]
                  rw [isPrefixOf_ticks3_cons3, if_pos rfl]
                  simp only [List.drop_succ_cons, List.drop_zero]
                  rw [takeWhile_append_break (hZh qq), if_neg hlg,
                    dropWhile_append_break (hZh qq), eI]
                refine ⟨{ indent := u.takeWhile isIndentChar,
                          language := u₄.takeWhile isWordChar,
                          spaces := (u₄.dropWhile isWordChar
                            ++ (ind ++ (ticks3 ++ (lang ++ q)))).takeWhile (fun c => c = ' '),
                          attrsRaw := (u₄.dropWhile isWordChar
                            ++ (ind ++ (ticks3 ++ (lang ++ q)))).dropWhile (fun c => c = ' ') },
                  { indent := u.takeWhile isIndentChar,
                    language := u₄.takeWhile isWordChar,
                    spaces := (u₄.dropWhile isWordChar
                      ++ (ind ++ (ticks3 ++ (lang ++ q')))).takeWhile (fun c => c = ' '),
                    attrsRaw := (u₄.dropWhile isWordChar
                      ++ (ind ++ (ticks3 ++ (lang ++ q')))).dropWhile (fun c => c = ' ') },
                  main q, main q', rfl⟩
            · left
              have main : ∀ (qq : List Char),
                  openerLine (u ++ (ind ++ (ticks3 ++ (lang ++ qq)))) = none := by
                intro qq
                simp only [openerLine]
                rw [eD]
                simp only [List.cons_append, List.nil_append]
                rw [isPrefixOf_ticks3_cons3_ne hcc]
                simp
              exact ⟨main q, main q'⟩
        · left
          have main : ∀ (qq : List Char),
              openerLine (u ++ (ind ++ (ticks3 ++ (lang ++ qq)))) = none := by
            intro qq
            simp only [openerLine]
            rw [eD]
            simp only [List.cons_append, List.nil_append]
            rw [isPrefixOf_ticks3_cons2_ne hbb]
            simp
          exact ⟨main q, main q'⟩
    · left
      have main : ∀ (qq : List Char),
          openerLine (u ++ (ind ++ (ticks3 ++ (lang ++ qq)))) = none := by
        intro qq
        simp only [openerLine]
        rw [eD]
        rw [isPrefixOf_ticks3_cons_ne hab]
        simp
      exact ⟨main q, main q'⟩


/-- Invariants of the groups of any successful match of
code_block_pattern. -/
structure FenceOk (m : FenceMatch) : Prop where
  indent_all : m.indent.all isIndentChar = true
  lang_ne : m.language ≠ []
  lang_all : m.language.all isWordChar = true
  sp_all : m.spaces.all (fun c => c = ' ') = true
  attrs_nl : '\n' ∉ m.attrsRaw
  attrs_head : ∀ c, m.attrsRaw.head? = some c → ¬ c = ' '
  after_head : ∀ c, (m.spaces ++ m.attrsRaw).head? = some c → isWordChar c = false
  code_lines : ∃ L, m.code = linesTerm L ∧ ∀ l ∈ L, GoodLine m.indent l

/-- Soundness of tryMatch: the groups satisfy the fence invariants and
the text decomposes as the whole match followed by the remainder. -/
theorem tryMatch_sound {s : List Char} {m : FenceMatch} {rest : List Char}
    (h : tryMatch s = some (m, rest)) : FenceOk m ∧ s = fenceWhole m ++ rest := by
  rw [tryMatch] at h
  cases hpo : parseOpener s with
  | none => rw [hpo] at h; cases h
  | some pr =>
    obtain ⟨g, afterHdr⟩ := pr
    rw [hpo] at h
    dsimp only at h
    cases hfc : findCloserF g.indent (afterHdr.length + 1) afterHdr with
    | none => rw [hfc] at h; cases h
    | some cr =>
      obtain ⟨code, rest'⟩ := cr
      rw [hfc] at h
      dsimp only at h
      simp only [Option.some.injEq, Prod.mk.injEq] at h
      obtain ⟨hm, hrest⟩ := h
      subst hm
      subst hrest
      have OF := parseOpener_sound hpo
      have hindnl : '\n' ∉ g.indent := all_indent_no_nl OF.indent_all
      obtain ⟨L, hL1, hL2, hL3⟩ := findCloserF_sound hindnl hfc
      constructor
      · refine ⟨OF.indent_all, OF.lang_ne, OF.lang_all, OF.sp_all,
          fun hmem => (OF.attrs_nl '\n' hmem) rfl, ?_, ?_, ⟨L, hL1, hL2⟩⟩
        · intro c hc
          obtain ⟨w', hw'⟩ := head?_eq_cons hc
          exact OF.attrs_head c w' hw'
        · intro c hc
          obtain ⟨x', hx'⟩ := head?_eq_cons hc
          apply OF.afterLang_head c (x' ++ '\n' :: afterHdr)
          rw [← List.append_assoc, hx']
          rfl
      · rw [OF.recon, hL3]
        simp [fenceWhole, List.append_assoc]

/-- Completeness of tryMatch: the whole text of a well-formed fence
followed by anything matches again, with the identical groups and the
appended text as remainder. -/
theorem tryMatch_fenceWhole {m : FenceMatch} (F : FenceOk m) (x : List Char) :
    tryMatch (fenceWhole m ++ x) = some (m, x) := by
  obtain ⟨L, hL1, hL2⟩ := F.code_lines
  have hshape : fenceWhole m ++ x = m.indent ++ (ticks3 ++ (m.language ++ (m.spaces ++
      (m.attrsRaw ++ '\n' :: (m.code ++ (m.indent ++ (ticks3 ++ x))))))) := by
    simp [fenceWhole, List.append_assoc]
  rw [tryMatch, hshape, parseOpener_build F.indent_all F.lang_ne F.lang_all F.sp_all
    F.attrs_nl F.attrs_head F.after_head]
  dsimp only
  rw [hL1]
  have hcassoc : linesTerm L ++ (m.indent ++ (ticks3 ++ x))
      = linesTerm L ++ ((m.indent ++ ticks3) ++ x) := by
    simp [List.append_assoc]
  rw [hcassoc]
  have hfuel : L.length + 1 ≤ (linesTerm L ++ ((m.indent ++ ticks3) ++ x)).length + 1 := by
    have := linesTerm_len L
    simp only [List.length_append]
    omega
  rw [findCloserF_complete (all_indent_no_nl F.indent_all) L hL2 x _ hfuel]
  dsimp only
  rw [← hL1]


/-- A closer needle matching across a context that itself ends in an
indent and three backticks never needs to read past those backticks:
its length is bounded by the context. -/
theorem needle_len_le {A ind B w : List Char} (hA : '\x60' ∉ A) (hind : '\x60' ∉ ind)
    (h : (A ++ ticks3).isPrefixOf ((B ++ (ind ++ ticks3)) ++ w) = true) :
    (A ++ ticks3).length ≤ (B ++ (ind ++ ticks3)).length := by
  by_contra hlen
  push_neg at hlen
  have hN : (A ++ ticks3) <+: ((B ++ (ind ++ ticks3)) ++ w) := List.isPrefixOf_iff_prefix.mp h
  have hD : (B ++ (ind ++ ticks3)) <+: ((B ++ (ind ++ ticks3)) ++ w) := List.prefix_append _ _
  have hDN : (B ++ (ind ++ ticks3)) <+: (A ++ ticks3) :=
    List.prefix_of_prefix_length_le hD hN (le_of_lt hlen)
  obtain ⟨N', hN'⟩ := hDN
  have ht3 : ticks3.length = 3 := rfl
  have hlen' : B.length + (ind.length + ticks3.length) < A.length + ticks3.length := by
    simpa [List.length_append] using hlen
  have hlens : B.length + (ind.length + (ticks3.length + N'.length))
      = A.length + ticks3.length := by
    have := congrArg List.length hN'
    simpa [List.length_append] using this
  have hdrop : N' = (A ++ ticks3).drop (B ++ (ind ++ ticks3)).length := by
    rw [← hN', List.drop_left]
  have hmem : '\x60' ∈ N' := by
    by_cases hcase : (B ++ (ind ++ ticks3)).length ≤ A.length
    · rw [hdrop, List.drop_append_of_le_length hcase]
      exact List.mem_append_right _ (by decide)
    · have hlt3 : (B ++ (ind ++ ticks3)).length < A.length + 3 := by
        simp only [List.length_append]
        omega
      have hk : ∃ k, (B ++ (ind ++ ticks3)).length = A.length + k ∧ 1 ≤ k ∧ k < 3 := by
        refine ⟨(B ++ (ind ++ ticks3)).length - A.length, by omega, ?_, by omega⟩
        have : A.length < (B ++ (ind ++ ticks3)).length := by omega
        omega
      obtain ⟨k, hk1, hk2, hk3⟩ := hk
      rw [hdrop, hk1, List.drop_append]
      interval_cases k
      · decide
      · decide
  have hcount := congrArg (List.count '\x60') hN'
  simp only [List.count_append] at hcount
  have hA0 : A.count '\x60' = 0 := List.count_eq_zero.mpr hA
  have hind0 : ind.count '\x60' = 0 := List.count_eq_zero.mpr hind
  have hNc : 0 < N'.count '\x60' := List.count_pos_iff.mpr hmem
  omega

/-- The closer test at a position before a context ending in the
fence's indent and backticks does not depend on what follows the
backticks. -/
theorem closer_test_stable {A ind : List Char} (hA : '\x60' ∉ A) (hind : '\x60' ∉ ind)
    (B w w' : List Char) :
    (A ++ ticks3).isPrefixOf (B ++ (ind ++ (ticks3 ++ w)))
      = (A ++ ticks3).isPrefixOf (B ++ (ind ++ (ticks3 ++ w'))) := by
  have ha1 : B ++ (ind ++ (ticks3 ++ w)) = (B ++ (ind ++ ticks3)) ++ w := by
    simp [List.append_assoc]
  have ha2 : B ++ (ind ++ (ticks3 ++ w')) = (B ++ (ind ++ ticks3)) ++ w' := by
    simp [List.append_assoc]
  rw [ha1, ha2]
  by_cases hlen : (A ++ ticks3).length ≤ (B ++ (ind ++ ticks3)).length
  · rw [isPrefixOf_append_of_length hlen, isPrefixOf_append_of_length hlen]
  · cases h1 : (A ++ ticks3).isPrefixOf ((B ++ (ind ++ ticks3)) ++ w) with
    | true => exact absurd (needle_len_le hA hind h1) hlen
    | false =>
      cases h2 : (A ++ ticks3).isPrefixOf ((B ++ (ind ++ ticks3)) ++ w') with
      | true => exact absurd (needle_len_le hA hind h2) hlen
      | false => rfl

/-- The position after a newline-terminated body is a line start. -/
theorem mem_lineStarts_append_term {L : List (List Char)} (hL : ∀ l ∈ L, '\n' ∉ l)
    (w : List Char) : w ∈ lineStarts (linesTerm L ++ w) := by
  induction L with
  | nil => simp [linesTerm, lineStarts]
  | cons l L ih =>
    rw [show linesTerm (l :: L) ++ w = l ++ '\n' :: (linesTerm L ++ w) from by simp [linesTerm],
      lineStarts]
    refine List.mem_cons_of_mem _ ?_
    rw [nlSuffixes_line (hL l (by simp))]
    exact ih (fun a ha => hL a (by simp [ha]))

/-- A line start of a newline-terminated body followed by a tail is a
full line of the body followed by more text, or a line start of the
tail. -/
theorem lineStarts_linesTerm_cases {L : List (List Char)} (hL : ∀ l ∈ L, '\n' ∉ l)
    {w p : List Char} (hp : p ∈ lineStarts (linesTerm L ++ w)) :
    (∃ l ∈ L, ∃ r, p = l ++ '\n' :: r) ∨ p ∈ lineStarts w := by
  induction L with
  | nil => right; simpa [linesTerm] using hp
  | cons l L ih =>
    rw [show linesTerm (l :: L) ++ w = l ++ '\n' :: (linesTerm L ++ w) from by simp [linesTerm],
      lineStarts] at hp
    rcases List.mem_cons.mp hp with h | h
    · exact Or.inl ⟨l, by simp, linesTerm L ++ w, h⟩
    · rw [nlSuffixes_line (hL l (by simp))] at h
      rcases ih (fun a ha => hL a (by simp [ha])) h with h2 | h2
      · obtain ⟨l', hl', r, hr⟩ := h2
        exact Or.inl ⟨l', by simp [hl'], r, hr⟩
      · exact Or.inr h2

/-- A line of the body passing the closer test yields a passing line
start of the body followed by any tail. -/
theorem exists_passing_lineStart {needle : List Char} (hn : '\n' ∉ needle)
    {L : List (List Char)} (hL : ∀ l ∈ L, '\n' ∉ l) {l : List Char} (hl : l ∈ L)
    (hpass : needle.isPrefixOf l = true) (w : List Char) :
    ∃ p ∈ lineStarts (linesTerm L ++ w), needle.isPrefixOf p = true := by
  induction L with
  | nil => simp at hl
  | cons l0 L ih =>
    rcases List.mem_cons.mp hl with he | he
    · subst he
      refine ⟨linesTerm (l :: L) ++ w, by simp [lineStarts], ?_⟩
      rw [show linesTerm (l :: L) ++ w = l ++ '\n' :: (linesTerm L ++ w) from by
        simp [linesTerm]]
      rw [isPrefixOf_line hn]
      exact hpass
    · obtain ⟨p, hp1, hp2⟩ := ih (fun a ha => hL a (by simp [ha])) he
      refine ⟨p, ?_, hp2⟩
      rw [show linesTerm (l0 :: L) ++ w = l0 ++ '\n' :: (linesTerm L ++ w) from by
        simp [linesTerm], lineStarts]
      exact List.mem_cons_of_mem _ (by rw [nlSuffixes_line (hL l0 (by simp))]; exact hp1)

/-- Newline suffixes embed into those of an extended text. -/
theorem mem_nlSuffixes_append_right {w p : List Char} (h : p ∈ nlSuffixes w)
    (v : List Char) : p ∈ nlSuffixes (v ++ w) := by
  rw [nlSuffixes_append]
  exact List.mem_append_right _ h

/-- A successful closer search exhibits a passing line start. -/
theorem findCloser_some_passing {ind : List Char} (hind : '\n' ∉ ind)
    {fuel : Nat} {s code rest : List Char} (h : findCloserF ind fuel s = some (code, rest)) :
    ∃ p ∈ lineStarts s, (ind ++ ticks3).isPrefixOf p = true := by
  obtain ⟨L, hL1, hL2, hL3⟩ := findCloserF_sound hind h
  refine ⟨(ind ++ ticks3) ++ rest, ?_, isPrefixOf_append_self _ _⟩
  rw [hL3, hL1]
  exact mem_lineStarts_append_term (fun l hl => (hL2 l hl).1) _


/-- Transfer of a passing closer line start from the rewritten fence
text to the original fence text: the shared context, the shared tail
after the closer, and the body lines (each a body line of the
original) each map to a passing position on the other side. -/
theorem passing_transfer {gind ind lang qY qX u₂ z : List Char}
    {KY LX : List (List Char)}
    (hgind : gind.all isIndentChar = true)
    (hind : ind.all isIndentChar = true)
    (hlang_nl : '\n' ∉ lang)
    (hqY : '\n' ∉ qY) (hqX : '\n' ∉ qX)
    (hLX : ∀ l ∈ LX, '\n' ∉ l)
    (hsub : ∀ l ∈ KY, l ∈ LX)
    (hp : ∃ p ∈ lineStarts (u₂ ++ (ind ++ (ticks3 ++ (lang ++ (qY ++ '\n' ::
        (linesTerm KY ++ ((ind ++ ticks3) ++ z))))))),
      (gind ++ ticks3).isPrefixOf p = true) :
    ∃ p ∈ lineStarts (u₂ ++ (ind ++ (ticks3 ++ (lang ++ (qX ++ '\n' ::
        (linesTerm LX ++ ((ind ++ ticks3) ++ z))))))),
      (gind ++ ticks3).isPrefixOf p = true := by
  have hKY : ∀ l ∈ KY, '\n' ∉ l := fun l hl => hLX l (hsub l hl)
  have hhdrY : '\n' ∉ ind ++ (ticks3 ++ (lang ++ qY)) := by
    intro hm
    rcases List.mem_append.mp hm with h | h
    · exact all_indent_no_nl hind h
    · rcases List.mem_append.mp h with h | h
      · simp [ticks3] at h
      · rcases List.mem_append.mp h with h | h
        · exact hlang_nl h
        · exact hqY h
  have hhdrX : '\n' ∉ ind ++ (ticks3 ++ (lang ++ qX)) := by
    intro hm
    rcases List.mem_append.mp hm with h | h
    · exact all_indent_no_nl hind h
    · rcases List.mem_append.mp h with h | h
      · simp [ticks3] at h
      · rcases List.mem_append.mp h with h | h
        · exact hlang_nl h
        · exact hqX h
  have hYshape : ind ++ (ticks3 ++ (lang ++ (qY ++ '\n' ::
        (linesTerm KY ++ ((ind ++ ticks3) ++ z)))))
      = (ind ++ (ticks3 ++ (lang ++ qY))) ++ '\n' ::
        (linesTerm KY ++ ((ind ++ ticks3) ++ z)) := by
    simp [List.append_assoc]
  have hXshape : ind ++ (ticks3 ++ (lang ++ (qX ++ '\n' ::
        (linesTerm LX ++ ((ind ++ ticks3) ++ z)))))
      = (ind ++ (ticks3 ++ (lang ++ qX))) ++ '\n' ::
        (linesTerm LX ++ ((ind ++ ticks3) ++ z)) := by
    simp [List.append_assoc]
  have hngind : '\n' ∉ gind ++ ticks3 := closer_no_nl (all_indent_no_nl hgind)
  obtain ⟨p, hpm, hpt⟩ := hp
  rw [lineStarts] at hpm
  rcases List.mem_cons.mp hpm with he | hm
  · subst he
    refine ⟨u₂ ++ (ind ++ (ticks3 ++ (lang ++ (qX ++ '\n' ::
      (linesTerm LX ++ ((ind ++ ticks3) ++ z)))))), by rw [lineStarts]; exact List.mem_cons_self _ _, ?_⟩
    rw [← closer_test_stable (all_indent_no_tick hgind) (all_indent_no_tick hind) u₂
      (lang ++ (qY ++ '\n' :: (linesTerm KY ++ ((ind ++ ticks3) ++ z))))
      (lang ++ (qX ++ '\n' :: (linesTerm LX ++ ((ind ++ ticks3) ++ z))))]
    exact hpt
  · rw [nlSuffixes_append] at hm
    rcases List.mem_append.mp hm with hm | hm
    · obtain ⟨B₀, hB₀, he⟩ := List.mem_map.mp hm
      subst he
      refine ⟨B₀ ++ (ind ++ (ticks3 ++ (lang ++ (qX ++ '\n' ::
        (linesTerm LX ++ ((ind ++ ticks3) ++ z)))))), ?_, ?_⟩
      · rw [lineStarts]
        refine List.mem_cons_of_mem _ ?_
        rw [nlSuffixes_append]
        exact List.mem_append_left _ (List.mem_map_of_mem _ hB₀)
      · rw [← closer_test_stable (all_indent_no_tick hgind) (all_indent_no_tick hind) B₀
          (lang ++ (qY ++ '\n' :: (linesTerm KY ++ ((ind ++ ticks3) ++ z))))
          (lang ++ (qX ++ '\n' :: (linesTerm LX ++ ((ind ++ ticks3) ++ z))))]
        exact hpt
    · rw [hYshape, nlSuffixes_line hhdrY] at hm
      have hback : ∀ p', p' ∈ lineStarts (linesTerm LX ++ ((ind ++ ticks3) ++ z)) →
          p' ∈ lineStarts (u₂ ++ (ind ++ (ticks3 ++ (lang ++ (qX ++ '\n' ::
            (linesTerm LX ++ ((ind ++ ticks3) ++ z))))))) := by
        intro p' hp'
        rw [lineStarts]
        refine List.mem_cons_of_mem _ ?_
        rw [nlSuffixes_append]
        refine List.mem_append_right _ ?_
        rw [hXshape, nlSuffixes_line hhdrX]
        exact hp'
      rcases lineStarts_linesTerm_cases hKY hm with hcase | hcase
      · obtain ⟨l, hlK, r, hr⟩ := hcase
        subst hr
        rw [isPrefixOf_line hngind] at hpt
        obtain ⟨p', hp'1, hp'2⟩ := exists_passing_lineStart hngind hLX (hsub l hlK) hpt
          ((ind ++ ticks3) ++ z)
        exact ⟨p', hback p' hp'1, hp'2⟩
      · rw [lineStarts] at hcase
        rcases List.mem_cons.mp hcase with he | hsuf
        · subst he
          refine ⟨(ind ++ ticks3) ++ z, ?_, hpt⟩
          exact hback _ (mem_lineStarts_append_term hLX _)
        · refine ⟨p, ?_, hpt⟩
          refine hback p ?_
          rw [lineStarts]
          exact List.mem_cons_of_mem _ (mem_nlSuffixes_append_right hsuf _)


/-- A marker-free body records no numbers. -/
theorem specNumsAux_nil_of {marker : List Char} :
    ∀ (ls : List (List Char)) (base : Nat),
      (∀ l ∈ ls, containsSub marker l = false) → specNumsAux marker base ls = [] := by
  intro ls
  induction ls with
  | nil => intro base _; rfl
  | cons l0 ls ih =>
    intro base h
    rw [specNumsAux, if_neg (by rw [h l0 (by simp)]; exact Bool.false_ne_true)]
    exact ih (base + 1) (fun l hl => h l (List.mem_cons_of_mem _ hl))

/-- Computation of the highlight replacement when the attributes carry
no line-number attribute and the body strips to nothing. -/
theorem repl_compute_empty {m : FenceMatch}
    (hhl : containsSub "hl_lines".toList (rstripChars m.attrsRaw) = false)
    (hlines : (splitNl m.code).dropWhile isBlankLine = []) :
    replace_highlight_comments m =
      m.indent ++ (ticks3 ++ (m.language ++
        ((if rstripChars m.attrsRaw ≠ [] then ' ' :: rstripChars m.attrsRaw else [])
          ++ '\n' :: (m.indent ++ ticks3)))) := by
  simp only [replace_highlight_comments, hhl, Bool.false_eq_true, if_false, hlines]
  simp only [hlLoop, joinNl]
  simp [List.append_assoc]

/-- Computation of the highlight replacement when the attributes carry
no line-number attribute and the stripped body is nonempty: the body
lines are filtered by the marker, the numbers are recorded, and the
fence is rebuilt. -/
theorem repl_compute_main {m : FenceMatch} {E : List (List Char)}
    (hhl : containsSub "hl_lines".toList (rstripChars m.attrsRaw) = false)
    (hlines : (splitNl m.code).dropWhile isBlankLine = E ++ [[]]) :
    replace_highlight_comments m =
      m.indent ++ (ticks3 ++ (m.language ++
        ((if rstripChars m.attrsRaw ≠ [] then ' ' :: rstripChars m.attrsRaw else [])
          ++ ((if specNumsAux (languageMarker m.language) 0 (E ++ [[]]) ≠ [] then
                " hl_lines=\"".toList
                  ++ (joinSpace (specNumsAux (languageMarker m.language) 0 (E ++ [[]]))
                    ++ "\"".toList)
              else [])
            ++ '\n' :: (linesTerm (E.filter
                (fun l => !containsSub (languageMarker m.language) l))
              ++ (m.indent ++ ticks3)))))) := by
  have hf : List.filter (fun l => !containsSub (languageMarker m.language) l) [[]] = [[]] := by
    simp [containsSub_nil_ne (languageMarker_ne_nil m.language)]
  simp only [replace_highlight_comments, hhl, Bool.false_eq_true, if_false, hlines]
  rw [hlLoop_fst, hlLoop_snd, specKeptLines, List.filter_append, hf, List.nil_append,
    joinNl_term]
  simp only [List.length_nil]
  simp [List.append_assoc]


/-- The highlight replacement of a fence whose attributes already
carry a line-number attribute is the whole original match text. -/
theorem repl_shortcircuit {m : FenceMatch}
    (h : containsSub "hl_lines".toList (rstripChars m.attrsRaw) = true) :
    replace_highlight_comments m = fenceWhole m := by
  simp only [replace_highlight_comments]
  rw [if_pos h]

/-- Structure of the highlight replacement of a well-formed fence
match: the output is itself the whole text of a well-formed fence
match whose body lines all come from the original body, and the
replacement of that new match reproduces the same text. -/
theorem repl_analysis {m : FenceMatch} {LX : List (List Char)}
    (F : FenceOk m) (hcode : m.code = linesTerm LX)
    (hLX : ∀ l ∈ LX, GoodLine m.indent l) :
    ∃ m' KY, replace_highlight_comments m = fenceWhole m'
      ∧ m'.indent = m.indent ∧ m'.language = m.language
      ∧ m'.code = linesTerm KY ∧ (∀ l ∈ KY, l ∈ LX)
      ∧ FenceOk m'
      ∧ replace_highlight_comments m' = replace_highlight_comments m := by
  have hspc : (" hl_lines=\"".toList : List Char) = ' ' :: "hl_lines=\"".toList := rfl
  by_cases hhl : containsSub "hl_lines".toList (rstripChars m.attrsRaw) = true
  · exact ⟨m, LX, repl_shortcircuit hhl, rfl, rfl, hcode, fun l hl => hl, F, rfl⟩
  · have hhlf : containsSub "hl_lines".toList (rstripChars m.attrsRaw) = false := by
      cases h : containsSub "hl_lines".toList (rstripChars m.attrsRaw)
      · rfl
      · exact absurd h hhl
    have hLXnl : ∀ l ∈ LX, '\n' ∉ l := fun l hl => (hLX l hl).1
    have hsplit : splitNl m.code = LX ++ [[]] := by
      rw [hcode]
      exact splitNl_linesTerm hLXnl
    cases hE : LX.dropWhile isBlankLine with
    | nil =>
      have hallb : LX.all isBlankLine = true :=
        List.all_eq_true.mpr (fun l hl => List.dropWhile_eq_nil_iff.mp hE l hl)
      have hlines : (splitNl m.code).dropWhile isBlankLine = [] := by
        rw [hsplit, dropWhile_append_all _ hallb]
        rfl
      have hrepl := repl_compute_empty hhlf hlines
      by_cases hA : rstripChars m.attrsRaw = []
      · refine ⟨⟨m.indent, m.language, [], [], []⟩, [], ?_, rfl, rfl, rfl, by simp, ?_, ?_⟩
        · rw [hrepl]
          simp [fenceWhole, List.append_assoc, hA]
        · refine ⟨F.indent_all, F.lang_ne, F.lang_all, by simp, by simp, ?_, ?_,
            ⟨[], rfl, by simp⟩⟩
          · intro c hc
            simp at hc
          · intro c hc
            simp at hc
        · rw [repl_compute_empty (m := ⟨m.indent, m.language, [], [], []⟩)
            (by dsimp only; decide) (by rfl), hrepl]
          dsimp only
          rw [if_neg (fun h => h rfl), if_neg (fun h => h hA)]
      · obtain ⟨a₀, A', hA'⟩ : ∃ a₀ A', rstripChars m.attrsRaw = a₀ :: A' := by
          cases h : rstripChars m.attrsRaw with
          | nil => exact absurd h hA
          | cons x xs => exact ⟨x, xs, rfl⟩
        have ha₀ : ¬ a₀ = ' ' := by
          obtain ⟨w', hw'⟩ := rstrip_head hA'
          exact F.attrs_head a₀ (by rw [hw']; rfl)
        refine ⟨⟨m.indent, m.language, [' '], rstripChars m.attrsRaw, []⟩, [],
          ?_, rfl, rfl, rfl, by simp, ?_, ?_⟩
        · rw [hrepl]
          simp [fenceWhole, List.append_assoc, hA]
        · refine ⟨F.indent_all, F.lang_ne, F.lang_all, by simp, ?_, ?_, ?_,
            ⟨[], rfl, by simp⟩⟩
          · intro hm2
            exact F.attrs_nl (mem_rstrip hm2)
          · intro c hc
            rw [hA'] at hc
            simp at hc
            rw [← hc]
            exact ha₀
          · intro c hc
            simp at hc
            rw [← hc]
            decide
        · rw [repl_compute_empty (m := ⟨m.indent, m.language, [' '],
            rstripChars m.attrsRaw, []⟩)
            (by dsimp only; rw [rstrip_idem]; exact hhlf) (by rfl), hrepl]
          dsimp only
          rw [rstrip_idem, if_pos hA]
    | cons l0 L'' =>
      have hl0 : isBlankLine l0 = false := dropWhile_cons_head hE
      have hLfalse : LX.all isBlankLine = false := by
        cases h : LX.all isBlankLine
        · rfl
        · rw [dropWhile_eq_nil_of_all h] at hE
          cases hE
      have hlines : (splitNl m.code).dropWhile isBlankLine = (l0 :: L'') ++ [[]] := by
        rw [hsplit, dropWhile_append_stop _ hLfalse, hE]
      have hrepl := repl_compute_main hhlf hlines
      simp only [List.cons_append] at hrepl
      have hEmem : ∀ l ∈ l0 :: L'', l ∈ LX := by
        intro l hl
        rw [← hE] at hl
        exact (List.dropWhile_sublist _).subset hl
      have hKmem : ∀ l ∈ (l0 :: L'').filter
          (fun l => !containsSub (languageMarker m.language) l), l ∈ LX :=
        fun l hl => hEmem l (List.mem_of_mem_filter hl)
      have hKgood : ∀ l ∈ (l0 :: L'').filter
          (fun l => !containsSub (languageMarker m.language) l), GoodLine m.indent l :=
        fun l hl => hLX l (hKmem l hl)
      by_cases hnum : specNumsAux (languageMarker m.language) 0 (l0 :: (L'' ++ [[]])) = []
      · have hnomark : ∀ l ∈ l0 :: (L'' ++ [[]]),
            containsSub (languageMarker m.language) l = false :=
          specNumsAux_eq_nil _ 0 hnum
        have hfilter : (l0 :: L'').filter
            (fun l => !containsSub (languageMarker m.language) l) = l0 :: L'' :=
          List.filter_eq_self.mpr (fun a ha => by
            rw [hnomark a (List.mem_append_left _ ha)]
            rfl)
        rw [if_neg (show ¬(specNumsAux (languageMarker m.language) 0
          (l0 :: (L'' ++ [[]])) ≠ []) from fun h => h hnum), hfilter,
          List.nil_append] at hrepl
        have hlines2 : (splitNl (linesTerm (l0 :: L''))).dropWhile isBlankLine
            = (l0 :: L'') ++ [[]] := by
          rw [splitNl_linesTerm (fun l hl => hLXnl l (hEmem l hl)), List.cons_append,
            List.dropWhile_cons, hl0]
          simp
        by_cases hA : rstripChars m.attrsRaw = []
        · refine ⟨⟨m.indent, m.language, [], [], linesTerm (l0 :: L'')⟩, l0 :: L'',
            ?_, rfl, rfl, rfl, hEmem, ?_, ?_⟩
          · rw [hrepl]
            simp [fenceWhole, List.append_assoc, hA]
          · refine ⟨F.indent_all, F.lang_ne, F.lang_all, by simp, by simp, ?_, ?_,
              ⟨l0 :: L'', rfl, fun l hl => hLX l (hEmem l hl)⟩⟩
            · intro c hc
              simp at hc
            · intro c hc
              simp at hc
          · rw [repl_compute_main (m := ⟨m.indent, m.language, [], [],
              linesTerm (l0 :: L'')⟩) (by dsimp only; decide)
              (by dsimp only; exact hlines2), hrepl]
            dsimp only
            simp only [List.cons_append]
            rw [if_neg (show ¬(rstripChars ([] : List Char) ≠ []) from fun h => h rfl),
              if_neg (fun h => h hnum), hfilter, if_neg (fun h => h hA)]
            simp only [List.nil_append]
        · obtain ⟨a₀, A', hA'⟩ : ∃ a₀ A', rstripChars m.attrsRaw = a₀ :: A' := by
            cases h : rstripChars m.attrsRaw with
            | nil => exact absurd h hA
            | cons x xs => exact ⟨x, xs, rfl⟩
          have ha₀ : ¬ a₀ = ' ' := by
            obtain ⟨w', hw'⟩ := rstrip_head hA'
            exact F.attrs_head a₀ (by rw [hw']; rfl)
          refine ⟨⟨m.indent, m.language, [' '], rstripChars m.attrsRaw,
            linesTerm (l0 :: L'')⟩, l0 :: L'', ?_, rfl, rfl, rfl, hEmem, ?_, ?_⟩
          · rw [hrepl]
            simp [fenceWhole, List.append_assoc, hA]
          · refine ⟨F.indent_all, F.lang_ne, F.lang_all, by simp, ?_, ?_, ?_,
              ⟨l0 :: L'', rfl, fun l hl => hLX l (hEmem l hl)⟩⟩
            · intro hm2
              exact F.attrs_nl (mem_rstrip hm2)
            · intro c hc
              rw [hA'] at hc
              simp at hc
              rw [← hc]
              exact ha₀
            · intro c hc
              simp at hc
              rw [← hc]
              decide
          · rw [repl_compute_main (m := ⟨m.indent, m.language, [' '],
              rstripChars m.attrsRaw, linesTerm (l0 :: L'')⟩)
              (by dsimp only; rw [rstrip_idem]; exact hhlf)
              (by dsimp only; exact hlines2), hrepl]
            dsimp only
            simp only [List.cons_append]
            rw [rstrip_idem, if_pos hA, if_neg (fun h => h hnum), hfilter]
            simp only [List.nil_append]
      · by_cases hA : rstripChars m.attrsRaw = []
        · refine ⟨⟨m.indent, m.language, [' '],
            "hl_lines=\"".toList ++ (joinSpace (specNumsAux (languageMarker m.language) 0
              (l0 :: (L'' ++ [[]]))) ++ "\"".toList),
            linesTerm ((l0 :: L'').filter
              (fun l => !containsSub (languageMarker m.language) l))⟩,
            (l0 :: L'').filter (fun l => !containsSub (languageMarker m.language) l),
            ?_, rfl, rfl, rfl, hKmem, ?_, ?_⟩
          · rw [hrepl]
            simp [fenceWhole, List.append_assoc, hA, hnum, hspc]
          · refine ⟨F.indent_all, F.lang_ne, F.lang_all, by simp, ?_, ?_, ?_,
              ⟨_, rfl, hKgood⟩⟩
            · intro hm2
              rcases List.mem_append.mp hm2 with h | h
              · exact absurd h (by decide)
              · rcases List.mem_append.mp h with h | h
                · refine joinSpace_no_nl ?_ h
                  intro x hx
                  obtain ⟨n, hn⟩ := mem_specNumsAux _ _ _ hx
                  rw [hn]
                  exact natChars_no_nl n
                · exact absurd h (by decide)
            · intro c hc
              simp at hc
              rw [← hc]
              decide
            · intro c hc
              simp at hc
              rw [← hc]
              decide
          · have hq : ("hl_lines=\"".toList
                ++ (joinSpace (specNumsAux (languageMarker m.language) 0
                      (l0 :: (L'' ++ [[]]))) ++ "\"".toList))
              = ("hl_lines=\"".toList
                ++ joinSpace (specNumsAux (languageMarker m.language) 0
                      (l0 :: (L'' ++ [[]])))) ++ ['\"'] := by
              simp [List.append_assoc]
            have hrs : rstripChars ("hl_lines=\"".toList
                ++ (joinSpace (specNumsAux (languageMarker m.language) 0
                      (l0 :: (L'' ++ [[]]))) ++ "\"".toList))
              = "hl_lines=\"".toList
                ++ (joinSpace (specNumsAux (languageMarker m.language) 0
                      (l0 :: (L'' ++ [[]]))) ++ "\"".toList) := by
              rw [hq, rstrip_append_nonws (by decide)]
            have hcontains : containsSub "hl_lines".toList
                ("hl_lines=\"".toList
                  ++ (joinSpace (specNumsAux (languageMarker m.language) 0
                        (l0 :: (L'' ++ [[]]))) ++ "\"".toList)) = true := by
              rw [show ("hl_lines=\"".toList : List Char)
                = "hl_lines".toList ++ "=\"".toList from rfl, List.append_assoc]
              exact containsSub_append_mid "hl_lines".toList [] _
            refine (repl_shortcircuit ?_).trans ?_
            · dsimp only
              rw [hrs]
              exact hcontains
            · rw [hrepl]
              simp [fenceWhole, List.append_assoc, hA, hnum, hspc]
        · obtain ⟨a₀, A', hA'⟩ : ∃ a₀ A', rstripChars m.attrsRaw = a₀ :: A' := by
            cases h : rstripChars m.attrsRaw with
            | nil => exact absurd h hA
            | cons x xs => exact ⟨x, xs, rfl⟩
          have ha₀ : ¬ a₀ = ' ' := by
            obtain ⟨w', hw'⟩ := rstrip_head hA'
            exact F.attrs_head a₀ (by rw [hw']; rfl)
          refine ⟨⟨m.indent, m.language, [' '],
            rstripChars m.attrsRaw ++ (' ' :: ("hl_lines=\"".toList
              ++ (joinSpace (specNumsAux (languageMarker m.language) 0
                    (l0 :: (L'' ++ [[]]))) ++ "\"".toList))),
            linesTerm ((l0 :: L'').filter
              (fun l => !containsSub (languageMarker m.language) l))⟩,
            (l0 :: L'').filter (fun l => !containsSub (languageMarker m.language) l),
            ?_, rfl, rfl, rfl, hKmem, ?_, ?_⟩
          · rw [hrepl]
            simp [fenceWhole, List.append_assoc, hA, hnum, hspc]
          · refine ⟨F.indent_all, F.lang_ne, F.lang_all, by simp, ?_, ?_, ?_,
              ⟨_, rfl, hKgood⟩⟩
            · intro hm2
              rcases List.mem_append.mp hm2 with h | h
              · exact F.attrs_nl (mem_rstrip h)
              · rcases List.mem_cons.mp h with h | h
                · exact absurd h (by decide)
                · rcases List.mem_append.mp h with h | h
                  · exact absurd h (by decide)
                  · rcases List.mem_append.mp h with h | h
                    · refine joinSpace_no_nl ?_ h
                      intro x hx
                      obtain ⟨n, hn⟩ := mem_specNumsAux _ _ _ hx
                      rw [hn]
                      exact natChars_no_nl n
                    · exact absurd h (by decide)
            · intro c hc
              rw [hA', List.cons_append, List.head?_cons] at hc
              simp at hc
              rw [← hc]
              exact ha₀
            · intro c hc
              simp at hc
              rw [← hc]
              decide
          · have hq : (rstripChars m.attrsRaw
                ++ (' ' :: ("hl_lines=\"".toList
                  ++ (joinSpace (specNumsAux (languageMarker m.language) 0
                        (l0 :: (L'' ++ [[]]))) ++ "\"".toList))))
              = (rstripChars m.attrsRaw
                ++ (' ' :: ("hl_lines=\"".toList
                  ++ joinSpace (specNumsAux (languageMarker m.language) 0
                        (l0 :: (L'' ++ [[]])))))) ++ ['\"'] := by
              simp [List.append_assoc]
            have hrs : rstripChars (rstripChars m.attrsRaw
                ++ (' ' :: ("hl_lines=\"".toList
                  ++ (joinSpace (specNumsAux (languageMarker m.language) 0
                        (l0 :: (L'' ++ [[]]))) ++ "\"".toList))))
              = rstripChars m.attrsRaw
                ++ (' ' :: ("hl_lines=\"".toList
                  ++ (joinSpace (specNumsAux (languageMarker m.language) 0
                        (l0 :: (L'' ++ [[]]))) ++ "\"".toList))) := by
              rw [hq, rstrip_append_nonws (by decide)]
            have hcontains : containsSub "hl_lines".toList
                (rstripChars m.attrsRaw
                  ++ (' ' :: ("hl_lines=\"".toList
                    ++ (joinSpace (specNumsAux (languageMarker m.language) 0
                          (l0 :: (L'' ++ [[]]))) ++ "\"".toList)))) = true := by
              have h1 : rstripChars m.attrsRaw
                  ++ (' ' :: ("hl_lines=\"".toList
                    ++ (joinSpace (specNumsAux (languageMarker m.language) 0
                          (l0 :: (L'' ++ [[]]))) ++ "\"".toList)))
                = (rstripChars m.attrsRaw ++ [' '])
                  ++ ("hl_lines".toList ++ ("=\"".toList
                    ++ (joinSpace (specNumsAux (languageMarker m.language) 0
                          (l0 :: (L'' ++ [[]]))) ++ "\"".toList))) := by
                simp [List.append_assoc,
                  show ("hl_lines=\"".toList : List Char)
                    = "hl_lines".toList ++ "=\"".toList from rfl]
              rw [h1]
              exact containsSub_append_mid "hl_lines".toList _ _
            refine (repl_shortcircuit ?_).trans ?_
            · dsimp only
              rw [hrs]
              exact hcontains
            · rw [hrepl]
              simp [fenceWhole, List.append_assoc, hA, hnum, hspc]

/-- tryMatch fails on the empty text. -/
theorem tryMatch_nil : tryMatch [] = none := rfl

/-- The whole text of a fence match is nonempty. -/
theorem fenceWhole_length_pos (m : FenceMatch) : 1 ≤ (fenceWhole m).length := by
  have h3 : ticks3.length = 3 := rfl
  simp [fenceWhole, List.length_append]
  omega

/-- Word characters are never a newline. -/
theorem all_word_no_nl {l : List Char} (h : l.all isWordChar = true) : '\n' ∉ l := by
  intro hm
  exact absurd (List.all_eq_true.mp h _ hm) (by decide)

/-- Space runs contain no newline. -/
theorem all_sp_no_nl {l : List Char} (h : l.all (fun c => c = ' ') = true) : '\n' ∉ l := by
  intro hm
  exact absurd (List.all_eq_true.mp h _ hm) (by decide)

/-- Decomposition of a text at its first newline. -/
theorem split_first_nl {u : List Char} (h : '\n' ∈ u) :
    ∃ u₁ u₂, u = u₁ ++ '\n' :: u₂ ∧ '\n' ∉ u₁ := by
  induction u with
  | nil => cases h
  | cons a t ih =>
    by_cases ha : a = '\n'
    · subst ha
      exact ⟨[], t, rfl, by simp⟩
    · have ht : '\n' ∈ t := by
        rcases List.mem_cons.mp h with he | he
        · exact absurd he.symm ha
        · exact he
      obtain ⟨u₁, u₂, he, hn⟩ := ih ht
      refine ⟨a :: u₁, u₂, by rw [he]; rfl, ?_⟩
      simp only [List.mem_cons, not_or]
      exact ⟨fun e => ha e.symm, hn⟩

/-- The indent group of the line parse is an indent run. -/
theorem openerLine_indent_all {w : List Char} {g : OpenerParse}
    (h : openerLine w = some g) : g.indent.all isIndentChar = true := by
  simp only [openerLine] at h
  split at h
  · split at h
    · cases h
    · simp only [Option.some.injEq] at h
      rw [← h]
      exact List.all_takeWhile
  · cases h

/-- Fuel above the text length does not affect the scan. -/
theorem subScanF_fuel (repl : FenceMatch → List Char) :
    ∀ (n : Nat) (s : List Char) (f₁ f₂ : Nat), s.length ≤ n → s.length ≤ f₁ →
      s.length ≤ f₂ → subScanF repl f₁ s = subScanF repl f₂ s := by
  intro n
  induction n with
  | zero =>
    intro s f₁ f₂ hn _ _
    have hs : s = [] := List.eq_nil_of_length_eq_zero (Nat.le_zero.mp hn)
    subst hs
    cases f₁ <;> cases f₂ <;> rfl
  | succ n ih =>
    intro s f₁ f₂ hn h1 h2
    cases s with
    | nil => cases f₁ <;> cases f₂ <;> rfl
    | cons c t =>
      simp only [List.length_cons] at hn h1 h2
      obtain ⟨k₁, rfl⟩ : ∃ k, f₁ = k + 1 := ⟨f₁ - 1, by omega⟩
      obtain ⟨k₂, rfl⟩ : ∃ k, f₂ = k + 1 := ⟨f₂ - 1, by omega⟩
      rw [subScanF, subScanF]
      cases htm : tryMatch (c :: t) with
      | none =>
        dsimp only
        exact congrArg _ (ih t k₁ k₂ (by omega) (by omega) (by omega))
      | some pr =>
        obtain ⟨mm, rest⟩ := pr
        dsimp only
        obtain ⟨FO, hdec⟩ := tryMatch_sound htm
        have hlen : rest.length + 1 ≤ t.length + 1 := by
          have := congrArg List.length hdec
          simp only [List.length_cons, List.length_append] at this
          have hp := fenceWhole_length_pos mm
          omega
        exact congrArg _ (ih rest k₁ k₂ (by omega) (by omega) (by omega))

/-- Scan step on a successful match at the head. -/
theorem hcb_match {s : List Char} {mm : FenceMatch} {rest : List Char}
    (h : tryMatch s = some (mm, rest)) :
    highlight_code_blocks s
      = replace_highlight_comments mm ++ highlight_code_blocks rest := by
  cases s with
  | nil => rw [tryMatch_nil] at h; cases h
  | cons c t =>
    rw [highlight_code_blocks, highlight_code_blocks]
    simp only [List.length_cons]
    rw [subScanF, h]
    dsimp only
    congr 1
    obtain ⟨FO, hdec⟩ := tryMatch_sound h
    have hlen : rest.length ≤ t.length := by
      have := congrArg List.length hdec
      simp only [List.length_cons, List.length_append] at this
      have hp := fenceWhole_length_pos mm
      omega
    exact subScanF_fuel _ t.length rest t.length rest.length hlen hlen (le_refl _)

/-- Scan step on a failed match at the head. -/
theorem hcb_nomatch {c : Char} {t : List Char} (h : tryMatch (c :: t) = none) :
    highlight_code_blocks (c :: t) = c :: highlight_code_blocks t := by
  rw [highlight_code_blocks, highlight_code_blocks]
  simp only [List.length_cons]
  rw [subScanF, h]


/-- Transfer of a passing closer line start between two newline
terminated bodies followed by the same closer and tail, when the lines
of the first all occur among the lines of the second. -/
theorem passing_transfer_tail {gind ind z : List Char} {KY LX : List (List Char)}
    (hgind : gind.all isIndentChar = true)
    (hLX : ∀ l ∈ LX, '\n' ∉ l)
    (hsub : ∀ l ∈ KY, l ∈ LX)
    (hp : ∃ p ∈ lineStarts (linesTerm KY ++ ((ind ++ ticks3) ++ z)),
      (gind ++ ticks3).isPrefixOf p = true) :
    ∃ p ∈ lineStarts (linesTerm LX ++ ((ind ++ ticks3) ++ z)),
      (gind ++ ticks3).isPrefixOf p = true := by
  have hKY : ∀ l ∈ KY, '\n' ∉ l := fun l hl => hLX l (hsub l hl)
  have hngind : '\n' ∉ gind ++ ticks3 := closer_no_nl (all_indent_no_nl hgind)
  obtain ⟨p, hpmem, hptest⟩ := hp
  rcases lineStarts_linesTerm_cases hKY hpmem with hcase | hcase
  · obtain ⟨l, hlK, r, hr⟩ := hcase
    subst hr
    rw [isPrefixOf_line hngind] at hptest
    exact exists_passing_lineStart hngind hLX (hsub l hlK) hptest _
  · rw [lineStarts] at hcase
    rcases List.mem_cons.mp hcase with he | hsuf
    · subst he
      exact ⟨(ind ++ ticks3) ++ z, mem_lineStarts_append_term hLX _, hptest⟩
    · refine ⟨p, ?_, hptest⟩
      rw [lineStarts]
      exact List.mem_cons_of_mem _ (mem_nlSuffixes_append_right hsuf _)

/-- Failure preservation: when the pattern fails at the start of the
context followed by the whole text of a well-formed fence, it still
fails after that fence text is replaced by its highlight rewrite. -/
theorem tryMatch_none_repl {u rest : List Char} {mm : FenceMatch}
    (F : FenceOk mm)
    (h : tryMatch (u ++ (fenceWhole mm ++ rest)) = none) :
    tryMatch (u ++ (replace_highlight_comments mm ++ rest)) = none := by
  obtain ⟨LX, hcodeX, hLXgood⟩ := F.code_lines
  obtain ⟨m', KY, hw, hind', hlang', hcode', hsub, F', hfix⟩ :=
    repl_analysis F hcodeX hLXgood
  rw [hw]
  have hYeq : fenceWhole m' ++ rest
      = mm.indent ++ (ticks3 ++ (mm.language ++ ((m'.spaces ++ m'.attrsRaw) ++ '\n' ::
          (linesTerm KY ++ ((mm.indent ++ ticks3) ++ rest))))) := by
    simp [fenceWhole, List.append_assoc, hind', hlang', hcode']
  have hXeq : fenceWhole mm ++ rest
      = mm.indent ++ (ticks3 ++ (mm.language ++ ((mm.spaces ++ mm.attrsRaw) ++ '\n' ::
          (linesTerm LX ++ ((mm.indent ++ ticks3) ++ rest))))) := by
    simp [fenceWhole, List.append_assoc, hcodeX]
  have hqYnl : '\n' ∉ m'.spaces ++ m'.attrsRaw := by
    intro hm2
    rcases List.mem_append.mp hm2 with h2 | h2
    · exact all_sp_no_nl F'.sp_all h2
    · exact F'.attrs_nl h2
  have hqXnl : '\n' ∉ mm.spaces ++ mm.attrsRaw := by
    intro hm2
    rcases List.mem_append.mp hm2 with h2 | h2
    · exact all_sp_no_nl F.sp_all h2
    · exact F.attrs_nl h2
  have hlangnl : '\n' ∉ mm.language := all_word_no_nl F.lang_all
  have hLXnl : ∀ l ∈ LX, '\n' ∉ l := fun l hl => (hLXgood l hl).1
  by_cases hu : '\n' ∈ u
  · obtain ⟨u₁, u₂, hu12, hnl₁⟩ := split_first_nl hu
    have hYline : u ++ (fenceWhole m' ++ rest)
        = u₁ ++ '\n' :: (u₂ ++ (fenceWhole m' ++ rest)) := by
      rw [hu12]
      simp [List.append_assoc]
    have hXline : u ++ (fenceWhole mm ++ rest)
        = u₁ ++ '\n' :: (u₂ ++ (fenceWhole mm ++ rest)) := by
      rw [hu12]
      simp [List.append_assoc]
    rw [tryMatch, hYline, parseOpener_line hnl₁]
    cases hol : openerLine u₁ with
    | none => rfl
    | some g =>
      simp only [Option.map_some']
      have hgind_all : g.indent.all isIndentChar = true := openerLine_indent_all hol
      cases hfcY : findCloserF g.indent ((u₂ ++ (fenceWhole m' ++ rest)).length + 1)
          (u₂ ++ (fenceWhole m' ++ rest)) with
      | none => rfl
      | some cr =>
        exfalso
        obtain ⟨p, hpmem, hptest⟩ :=
          findCloser_some_passing (all_indent_no_nl hgind_all) hfcY
        rw [hYeq] at hpmem
        obtain ⟨p', hp'mem, hp'test⟩ := passing_transfer hgind_all F.indent_all hlangnl
          hqYnl hqXnl hLXnl hsub ⟨p, hpmem, hptest⟩
        cases hfcX : findCloserF g.indent ((u₂ ++ (fenceWhole mm ++ rest)).length + 1)
            (u₂ ++ (fenceWhole mm ++ rest)) with
        | none =>
          have hall := findCloserF_none_sound _ _ (le_refl _) hfcX p'
            (by rw [hXeq]; exact hp'mem)
          rw [hp'test] at hall
          cases hall
        | some cr₂ =>
          rw [tryMatch, hXline, parseOpener_line hnl₁, hol] at h
          simp only [Option.map_some'] at h
          rw [hfcX] at h
          obtain ⟨c₀, r₀⟩ := cr₂
          dsimp only at h
          cases h
  · have hYhdr : u ++ (fenceWhole m' ++ rest)
        = (u ++ (mm.indent ++ (ticks3 ++ (mm.language ++ (m'.spaces ++ m'.attrsRaw)))))
          ++ '\n' :: (linesTerm KY ++ ((mm.indent ++ ticks3) ++ rest)) := by
      rw [hYeq]
      simp [List.append_assoc]
    have hXhdr : u ++ (fenceWhole mm ++ rest)
        = (u ++ (mm.indent ++ (ticks3 ++ (mm.language ++ (mm.spaces ++ mm.attrsRaw)))))
          ++ '\n' :: (linesTerm LX ++ ((mm.indent ++ ticks3) ++ rest)) := by
      rw [hXeq]
      simp [List.append_assoc]
    have hnlhdrY : '\n' ∉ u ++ (mm.indent ++ (ticks3 ++ (mm.language
        ++ (m'.spaces ++ m'.attrsRaw)))) := by
      intro hm2
      rcases List.mem_append.mp hm2 with h2 | h2
      · exact hu h2
      · rcases List.mem_append.mp h2 with h2 | h2
        · exact all_indent_no_nl F.indent_all h2
        · rcases List.mem_append.mp h2 with h2 | h2
          · simp [ticks3] at h2
          · rcases List.mem_append.mp h2 with h2 | h2
            · exact hlangnl h2
            · exact hqYnl h2
    have hnlhdrX : '\n' ∉ u ++ (mm.indent ++ (ticks3 ++ (mm.language
        ++ (mm.spaces ++ mm.attrsRaw)))) := by
      intro hm2
      rcases List.mem_append.mp hm2 with h2 | h2
      · exact hu h2
      · rcases List.mem_append.mp h2 with h2 | h2
        · exact all_indent_no_nl F.indent_all h2
        · rcases List.mem_append.mp h2 with h2 | h2
          · simp [ticks3] at h2
          · rcases List.mem_append.mp h2 with h2 | h2
            · exact hlangnl h2
            · exact hqXnl h2
    rw [tryMatch, hYhdr, parseOpener_line hnlhdrY]
    cases hol : openerLine (u ++ (mm.indent ++ (ticks3 ++ (mm.language
        ++ (m'.spaces ++ m'.attrsRaw))))) with
    | none => rfl
    | some g =>
      simp only [Option.map_some']
      have hgind_all : g.indent.all isIndentChar = true := openerLine_indent_all hol
      rcases openerLine_stable (u := u) F.indent_all F.lang_ne F.lang_all
          F'.after_head F.after_head with ⟨hn1, hn2⟩ | ⟨g₁, g₂, hs1, hs2, hind12⟩
      · rw [hol] at hn1
        cases hn1
      · rw [hol] at hs1
        injection hs1 with hg1
        subst hg1
        cases hfcY : findCloserF g.indent
            ((linesTerm KY ++ ((mm.indent ++ ticks3) ++ rest)).length + 1)
            (linesTerm KY ++ ((mm.indent ++ ticks3) ++ rest)) with
        | none => rfl
        | some cr =>
          exfalso
          obtain ⟨p, hpmem, hptest⟩ :=
            findCloser_some_passing (all_indent_no_nl hgind_all) hfcY
          obtain ⟨p', hp'mem, hp'test⟩ := passing_transfer_tail hgind_all hLXnl hsub
            ⟨p, hpmem, hptest⟩
          rw [hind12] at hp'test
          cases hfcX : findCloserF g₂.indent
              ((linesTerm LX ++ ((mm.indent ++ ticks3) ++ rest)).length + 1)
              (linesTerm LX ++ ((mm.indent ++ ticks3) ++ rest)) with
          | none =>
            have hall := findCloserF_none_sound _ _ (le_refl _) hfcX p' hp'mem
            rw [hp'test] at hall
            cases hall
          | some cr₂ =>
            rw [tryMatch, hXhdr, parseOpener_line hnlhdrX, hs2] at h
            simp only [Option.map_some'] at h
            rw [hfcX] at h
            obtain ⟨c₀, r₀⟩ := cr₂
            dsimp only at h
            cases h


/-- Failure of the pattern at a position is preserved by rewriting the
remainder of the text: scanning the remainder replaces each matched
fence by its highlight rewrite, and each such replacement preserves
failure at the earlier position. -/
theorem tryMatch_none_scan :
    ∀ (n : Nat) (s : List Char), s.length ≤ n → ∀ (u : List Char),
      tryMatch (u ++ s) = none → tryMatch (u ++ highlight_code_blocks s) = none := by
  intro n
  induction n with
  | zero =>
    intro s hn u h
    have hs : s = [] := List.eq_nil_of_length_eq_zero (Nat.le_zero.mp hn)
    subst hs
    exact h
  | succ n ih =>
    intro s hn u h
    cases s with
    | nil => exact h
    | cons c t =>
      simp only [List.length_cons] at hn
      cases htm : tryMatch (c :: t) with
      | none =>
        rw [hcb_nomatch htm]
        have e : u ++ c :: highlight_code_blocks t
            = (u ++ [c]) ++ highlight_code_blocks t := by
          simp
        rw [e]
        apply ih t (by omega) (u ++ [c])
        have e2 : (u ++ [c]) ++ t = u ++ c :: t := by simp
        rw [e2]
        exact h
      | some pr =>
        obtain ⟨mm, rest⟩ := pr
        rw [hcb_match htm]
        obtain ⟨FO, hdec⟩ := tryMatch_sound htm
        have h' : tryMatch (u ++ (fenceWhole mm ++ rest)) = none := by
          rw [← hdec]
          exact h
        have hN2 := tryMatch_none_repl FO h'
        have e : u ++ (replace_highlight_comments mm ++ highlight_code_blocks rest)
            = (u ++ replace_highlight_comments mm) ++ highlight_code_blocks rest := by
          simp [List.append_assoc]
        rw [e]
        have hrlen : rest.length ≤ n := by
          have := congrArg List.length hdec
          simp only [List.length_cons, List.length_append] at this
          have hp := fenceWhole_length_pos mm
          omega
        apply ih rest hrlen (u ++ replace_highlight_comments mm)
        have e2 : (u ++ replace_highlight_comments mm) ++ rest
            = u ++ (replace_highlight_comments mm ++ rest) := by
          simp [List.append_assoc]
        rw [e2]
        exact hN2

/-- The highlight rewrite of a well-formed fence match is matched
again as one whole fence, and rewriting that match reproduces the same
text. -/
theorem repl_rematch {mm : FenceMatch} (F : FenceOk mm) (x : List Char) :
    ∃ m', tryMatch (replace_highlight_comments mm ++ x) = some (m', x)
      ∧ replace_highlight_comments m' = replace_highlight_comments mm := by
  obtain ⟨LX, hcodeX, hLXgood⟩ := F.code_lines
  obtain ⟨m', KY, hw, _, _, _, _, F', hfix⟩ := repl_analysis F hcodeX hLXgood
  refine ⟨m', ?_, hfix⟩
  rw [hw]
  exact tryMatch_fenceWhole F' x

/-- Idempotence of the highlight scan, by strong induction on the
text length. -/
theorem hcb_idem_bound :
    ∀ (n : Nat) (s : List Char), s.length ≤ n →
      highlight_code_blocks (highlight_code_blocks s) = highlight_code_blocks s := by
  intro n
  induction n with
  | zero =>
    intro s hn
    have hs : s = [] := List.eq_nil_of_length_eq_zero (Nat.le_zero.mp hn)
    subst hs
    rfl
  | succ n ih =>
    intro s hn
    cases s with
    | nil => rfl
    | cons c t =>
      simp only [List.length_cons] at hn
      cases htm : tryMatch (c :: t) with
      | none =>
        rw [hcb_nomatch htm]
        have h2 : tryMatch (c :: highlight_code_blocks t) = none :=
          tryMatch_none_scan n t (by omega) [c] htm
        rw [hcb_nomatch h2, ih t (by omega)]
      | some pr =>
        obtain ⟨mm, rest⟩ := pr
        obtain ⟨FO, hdec⟩ := tryMatch_sound htm
        rw [hcb_match htm]
        obtain ⟨m', hsm, hfix⟩ := repl_rematch FO (highlight_code_blocks rest)
        rw [hcb_match hsm, hfix]
        congr 1
        apply ih rest
        have := congrArg List.length hdec
        simp only [List.length_cons, List.length_append] at this
        have hp := fenceWhole_length_pos mm
        omega

/-- C3: applying _highlight_code_blocks twice yields the same result
as applying it once, for every input text; and a matched fence whose
attributes already contain hl_lines is replaced by its own whole
match text, hence returned untouched. -/
theorem C3_theorem :
    (∀ s : List Char, highlight_code_blocks (highlight_code_blocks s)
        = highlight_code_blocks s)
    ∧ ∀ m : FenceMatch, containsSub "hl_lines".toList (rstripChars m.attrsRaw) = true →
        replace_highlight_comments m = fenceWhole m :=
  ⟨fun s => hcb_idem_bound s.length s (le_refl _), fun _ h => repl_shortcircuit h⟩

/-- Witness for C3 on a concrete python fence bearing a highlight
marker, and a concrete fence match carrying an hl_lines attribute. -/
theorem C3_witness :
    highlight_code_blocks (highlight_code_blocks
        "\x60\x60\x60python\nx = 1\n# highlight-next-line\ny = 2\n\x60\x60\x60".toList)
      = highlight_code_blocks
        "\x60\x60\x60python\nx = 1\n# highlight-next-line\ny = 2\n\x60\x60\x60".toList
    ∧ replace_highlight_comments
        ⟨[], "python".toList, [' '], "hl_lines=\"2\"".toList,
          "# highlight-next-line\n".toList⟩
      = fenceWhole
        ⟨[], "python".toList, [' '], "hl_lines=\"2\"".toList,
          "# highlight-next-line\n".toList⟩ :=
  ⟨C3_theorem.1 _, C3_theorem.2 _ (by decide)⟩


end NotebookHooks
